import Mathlib

/-!
Verification of the natural-language specification of `SolverKKT`
(src/core/solvers/kkt.cpp) against a shallow embedding of its code.

Modelling conventions:
* Eigen matrices and vectors are total functions `Nat → Nat → Rat` and
  `Nat → Rat`; a block or segment assignment overwrites a rectangle or a
  range of indices and leaves everything else unchanged, exactly as the
  in-place Eigen writes do.  Entries outside the matrix are never read by
  any theorem.
* C++ `double` scalars holding the regularization values are modelled by
  `RVal`: either NaN or an exact rational.  Comparisons involving NaN are
  false, as in IEEE arithmetic; the remaining arithmetic is exact.
* External collaborators (the shooting problem's `calcDiff`, `calc`, the
  stage models' manifold operators) are oracle parameters: derivative data
  is passed in as matrices/vectors, failure of a fallible call is a
  Boolean oracle, mirroring the `try`/`catch (const char*)` sites.
-/

namespace KKTSolver

abbrev Buf2 : Type := Nat → Nat → Rat

abbrev Buf1 : Type := Nat → Rat

/-- Model of Eigen `b.block(r, c, h, w) = v` (source writes such blocks in
`SolverKKT::calc`, kkt.cpp lines 43-73). -/
def writeBlock (r c h w : Nat) (v : Buf2) (b : Buf2) : Buf2 :=
  fun i j => if r ≤ i ∧ i < r + h ∧ c ≤ j ∧ j < c + w then v (i - r) (j - c) else b i j

/-- Model of Eigen `b.segment(o, n) = v`. -/
def writeSeg (o n : Nat) (v : Buf1) (b : Buf1) : Buf1 :=
  fun i => if o ≤ i ∧ i < o + n then v (i - o) else b i

/-- Model of Eigen `b.block(o, o, n, n).diagonal().array() += x`
(kkt.cpp lines 75 and 78). -/
def addDiag (o n : Nat) (x : Rat) (b : Buf2) : Buf2 :=
  fun i j => if i = j ∧ o ≤ i ∧ i < o + n then b i j + x else b i j

/-- Identity matrix block content (kkt.cpp line 43). -/
def idB : Buf2 := fun i j => if i = j then 1 else 0

/-- Content transpose, for `Lxu.transpose()` (kkt.cpp line 57). -/
def transposeB (v : Buf2) : Buf2 := fun i j => v j i

/-- Entrywise negation, for `-Fx` and `-Fu` (kkt.cpp lines 60-61). -/
def negB (v : Buf2) : Buf2 := fun i j => -(v i j)

/-- Matrix-vector product with explicit inner dimension `n`, the model of an
Eigen product whose left factor has `n` columns. -/
def matVecN (n : Nat) (M : Buf2) (v : Buf1) : Buf1 :=
  fun i => ∑ j ∈ Finset.range n, M i j * v j

/-- Dot product of the first `n` entries. -/
def dotR (n : Nat) (a b : Buf1) : Rat :=
  ∑ i ∈ Finset.range n, a i * b i

/-- A C++ `double` as used for the solver's regularization scalars: NaN or an
exact rational value. -/
inductive RVal where
  | nan : RVal
  | val (q : Rat) : RVal
deriving DecidableEq

/-- Model of `std::isnan`. -/
def RVal.isnan : RVal → Bool
  | nan => true
  | val _ => false

/-- Multiplication by a (non-NaN) constant; NaN propagates. -/
def RVal.mulC : RVal → Rat → RVal
  | nan, _ => nan
  | val q, c => val (q * c)

/-- Division by a (non-NaN, nonzero) constant; NaN propagates. -/
def RVal.divC : RVal → Rat → RVal
  | nan, _ => nan
  | val q, c => val (q / c)

/-- IEEE `x > c`: false when `x` is NaN. -/
def RVal.gtC : RVal → Rat → Bool
  | nan, _ => false
  | val q, c => decide (c < q)

/-- IEEE `x < c`: false when `x` is NaN. -/
def RVal.ltC : RVal → Rat → Bool
  | nan, _ => false
  | val q, c => decide (q < c)

/-- IEEE `x == c`: false when `x` is NaN. -/
def RVal.eqC : RVal → Rat → Bool
  | nan, _ => false
  | val q, c => decide (q = c)

/-- Value of `regfactor_` set in the constructor (kkt.cpp line 15). -/
def regfactor : Rat := 10

/-- Value of `regmin_` set in the constructor (kkt.cpp line 16): `1e-9`. -/
def regmin : Rat := 1 / 1000000000

/-- Value of `regmax_` set in the constructor (kkt.cpp line 17): `1e9`. -/
def regmax : Rat := 1000000000

/-- Value of `th_step_` set in the constructor (kkt.cpp line 20). -/
def thStep : Rat := 1 / 2

/-- Model of `SolverKKT::increaseRegularization` (kkt.cpp lines 240-246) acting on the
pair `(xreg_, ureg_)`. -/
def increaseRegularization (s : RVal × RVal) : RVal × RVal :=
  let x := s.1.mulC regfactor
  let x := if x.gtC regmax then RVal.val regmax else x
  (x, x)

/-- Model of `SolverKKT::decreaseRegularization` (kkt.cpp lines 248-254) acting on the
pair `(xreg_, ureg_)`. -/
def decreaseRegularization (s : RVal × RVal) : RVal × RVal :=
  let x := s.1.divC regfactor
  let x := if x.ltC regmin then RVal.val regmin else x
  (x, x)

/-- The regularization initialization performed at the top of
`SolverKKT::solve` (kkt.cpp lines 170-176). -/
def solveInitRegs (reginit : RVal) : RVal × RVal :=
  if reginit.isnan then (RVal.val 0, RVal.val 0) else (reginit, reginit)

/-- The step-length candidates built in the constructor
(kkt.cpp lines 24-28): ten values `1 / 2^n`. -/
def alphas : List Rat := (List.range 10).map (fun n => 1 / 2 ^ n)

/-- Outcome of the direction-computation retry loop in `solve`. -/
inductive DirResult where
  | success (recalc : Bool) : DirResult
  | exitFalse : DirResult
deriving DecidableEq

/-- The `while (true)` retry loop around `computeDirection` in
`SolverKKT::solve` (kkt.cpp lines 179-192), with fuel.  `fails recalc` is the
oracle for whether `computeDirection(recalc)` throws (the only throwing call
it contains is `problem_.calcDiff`, reached when `recalc` is true;
`computePrimalDual` performs no positive-definiteness check and never
throws).  The catch handler sets `recalc = false`, returns false if
`xreg_ == regmax_` and otherwise retries; it does not modify `xreg_` or
`ureg_`.  `none` means the fuel ran out with the loop still running. -/
def dirLoopFuel (fails : Bool → Bool) (xreg : RVal) : Bool → Nat → Option DirResult
  | _, 0 => none
  | recalc, n + 1 =>
    if fails recalc then
      if xreg.eqC regmax then some DirResult.exitFalse
      else dirLoopFuel fails xreg false n
    else some (DirResult.success recalc)

/-- The backtracking scan over `alphas_` in `SolverKKT::solve`
(kkt.cpp lines 196-212).  `steplength_` is assigned at each loop entry, so
the second component of the result is the accepted flag and the first is the
final value of `steplength_` (`prev` is its value before the loop, returned
only when the candidate list is empty).  `tryFails a` is the oracle for
`tryStep(a)` throwing; `accept a` is the acceptance condition of line 206. -/
def lineSearchRun (tryFails accept : Rat → Bool) : List Rat → Rat → Rat × Bool
  | [], prev => (prev, false)
  | a :: rest, _ =>
    if tryFails a then lineSearchRun tryFails accept rest a
    else if accept a then (a, true)
    else lineSearchRun tryFails accept rest a

/-- The scalar/flag state of the solver that the outer loop of
`SolverKKT::solve` reads and writes: `xreg_`, `ureg_`, `steplength_`,
`was_feasible_`, `is_feasible_`. -/
structure KKTState where
  xreg : RVal
  ureg : RVal
  steplength : Rat
  wasFeasible : Bool
  isFeasible : Bool
deriving DecidableEq

/-- Oracles for the external calls made during one iteration of `solve`:
whether `computeDirection(recalc)` throws, whether `tryStep(a)` throws, the
scalar acceptance disjuncts `d_[0] < th_grad_ || dV_ > th_acceptstep_*dVexp_`
of line 206 at step length `a`, and whether `stop_ < th_stop_` after the
iteration. -/
structure IterOracle where
  dirFails : Bool → Bool
  tryFails : Rat → Bool
  acceptExtra : Rat → Bool
  stopSmall : Bool

/-- Result of one iteration of the outer loop of `solve`: an early `return`,
divergence of the direction retry loop, or the state for the next
iteration. -/
inductive StepOut where
  | exit (b : Bool) : StepOut
  | hang : StepOut
  | next (s : KKTState) : StepOut
deriving DecidableEq

/-- The tail of one iteration of `solve` (kkt.cpp lines 223-235):
`stoppingCriteria()`, the callbacks (which do not modify the state) and the
convergence test `was_feasible_ && stop_ < th_stop_`. -/
def finishIter (o : IterOracle) (s : KKTState) : StepOut :=
  if s.wasFeasible && o.stopSmall then StepOut.exit true else StepOut.next s

/-- One iteration of the outer loop of `SolverKKT::solve`
(kkt.cpp lines 178-236).  The direction retry loop is run with fuel 2:
`dirLoopStable` below shows that with a deterministic failure oracle the
loop either settles within two attempts or never terminates (`hang`).
On acceptance the source executes `was_feasible_ = is_feasible_;`
`setCandidate(xs_try_, us_try_, true)`, where `setCandidate` (inherited
from `SolverAbstract`, not part of this file's source; modelled from the
spec, which says it installs the candidate trajectory and the feasibility
flag) sets `is_feasible_ = true`.  Then come the two regularization
adjustments of lines 214-222, with the early `return false` when the
increased `xreg_` equals `regmax_`. -/
def iterStep (o : IterOracle) (s : KKTState) : StepOut :=
  match dirLoopFuel o.dirFails s.xreg true 2 with
  | none => StepOut.hang
  | some DirResult.exitFalse => StepOut.exit false
  | some (DirResult.success _) =>
    let ls := lineSearchRun o.tryFails (fun a => o.acceptExtra a || !s.isFeasible) alphas
      s.steplength
    let step := ls.1
    let wasF := if ls.2 then s.isFeasible else s.wasFeasible
    let isF := if ls.2 then true else s.isFeasible
    let r1 := if thStep < step then decreaseRegularization (s.xreg, s.ureg) else (s.xreg, s.ureg)
    if step = alphas.getLastD 0 then
      let r2 := increaseRegularization r1
      if r2.1.eqC regmax then StepOut.exit false
      else finishIter o ⟨r2.1, r2.2, step, wasF, isF⟩
    else finishIter o ⟨r1.1, r1.2, step, wasF, isF⟩

/-- Overall result of `solve`: the returned Boolean, or divergence of the
direction retry loop. -/
inductive SolveRes where
  | ok (b : Bool) : SolveRes
  | hang : SolveRes
deriving DecidableEq

/-- The outer `for (iter_ = 0; iter_ < maxiter; ++iter_)` loop of
`SolverKKT::solve` (kkt.cpp lines 178-237); the oracle list has one entry
per potential iteration, the second component counts the iterations actually
entered.  Exhausting the list is the fall-through `return false` of
line 237. -/
def solveIters : List IterOracle → KKTState → SolveRes × Nat
  | [], _ => (SolveRes.ok false, 0)
  | o :: rest, s =>
    match iterStep o s with
    | StepOut.exit b => (SolveRes.ok b, 1)
    | StepOut.hang => (SolveRes.hang, 1)
    | StepOut.next s1 =>
      let r := solveIters rest s1
      (r.1, r.2 + 1)

/-- Index of the first iteration (0-based, within the given fuel) at which
the regularization pair, increased once per iteration, satisfies
`xreg_ == regmax_`. -/
def firstMaxIdx : RVal × RVal → Nat → Option Nat
  | _, 0 => none
  | s, n + 1 =>
    let s1 := increaseRegularization s
    if s1.1.eqC regmax then some 0
    else (firstMaxIdx s1 n).map (fun k => k + 1)

/-- Per-stage data consumed by `SolverKKT::calc`: the dimensions
`ndx = m->get_state().get_ndx()`, `nu = m->get_nu()`, the cost derivatives
`Lxx, Lxu, Luu, Lx, Lu`, the dynamics Jacobians `Fx, Fu`, and `xnextGap`,
the vector `state.diff(d->get_xnext(), xs_[t+1])` of kkt.cpp line 65
evaluated at the fixed trajectory. -/
structure StageInput where
  ndx : Nat
  nu : Nat
  Lxx : Buf2
  Lxu : Buf2
  Luu : Buf2
  Fx : Buf2
  Fu : Buf2
  Lx : Buf1
  Lu : Buf1
  xnextGap : Buf1

/-- Problem-level data for `calc`: the running stages, the terminal model's
tangent dimension and cost derivatives, and `x0gap`, the vector
`state.diff(problem_.get_x0(), xs_[0])` of kkt.cpp line 52 evaluated at the
fixed trajectory. -/
structure ProblemInput where
  stages : List StageInput
  ndxf : Nat
  Lxxf : Buf2
  Lxf : Buf1
  x0gap : Buf1

/-- Total tangent dimension `ndx_` (kkt.cpp lines 265-292: sum over running
models plus the terminal model). -/
def ProblemInput.N (p : ProblemInput) : Nat :=
  (p.stages.map StageInput.ndx).sum + p.ndxf

/-- Total control dimension `nu_`. -/
def ProblemInput.U (p : ProblemInput) : Nat :=
  (p.stages.map StageInput.nu).sum

/-- The offset `cx0 = problem_.get_runningModels()[0]->get_state().get_ndx()`
(kkt.cpp line 41). -/
def ProblemInput.cx0 (p : ProblemInput) : Nat :=
  match p.stages with
  | [] => 0
  | st :: _ => st.ndx

/-- State of the assembly loop in `calc`: the running offsets `ix`, `iu` and
the two buffers `kkt_`, `kktref_`. -/
structure AsmSt where
  ix : Nat
  iu : Nat
  K : Buf2
  r : Buf1

/-- Body of the `for (unsigned int t = 0; t < T; ++t)` loop of
`SolverKKT::calc` (kkt.cpp lines 45-68), in source order: the `t == 0` gap
write (line 52), the four Hessian blocks (55-58), the two negated Jacobian
blocks (60-61), the gradient segments (62-63), the dynamics-gap segment
(65), then the offset updates (66-67). -/
def stageStep (N U cx0 : Nat) (x0gap : Buf1) (s : AsmSt) (p : Nat × StageInput) : AsmSt :=
  let t := p.1
  let st := p.2
  let r0 := if t = 0 then writeSeg (N + U) st.ndx x0gap s.r else s.r
  let K1 := writeBlock s.ix s.ix st.ndx st.ndx st.Lxx s.K
  let K2 := writeBlock s.ix (N + s.iu) st.ndx st.nu st.Lxu K1
  let K3 := writeBlock (N + s.iu) s.ix st.nu st.ndx (transposeB st.Lxu) K2
  let K4 := writeBlock (N + s.iu) (N + s.iu) st.nu st.nu st.Luu K3
  let K5 := writeBlock (N + U + cx0 + s.ix) s.ix st.ndx st.ndx (negB st.Fx) K4
  let K6 := writeBlock (N + U + cx0 + s.ix) (N + s.iu) st.ndx st.nu (negB st.Fu) K5
  let r1 := writeSeg s.ix st.ndx st.Lx r0
  let r2 := writeSeg (N + s.iu) st.nu st.Lu r1
  let r3 := writeSeg (N + U + cx0 + s.ix) st.ndx st.xnextGap r2
  ⟨s.ix + st.ndx, s.iu + st.nu, K6, r3⟩

/-- The stage loop of `calc` over the enumerated running models. -/
def calcLoop (p : ProblemInput) (s : AsmSt) : AsmSt :=
  p.stages.enum.foldl (stageStep p.N p.U p.cx0 p.x0gap) s

/-- The write-only part of `calc`: the identity block of line 43, the stage
loop, and the terminal-model writes of lines 71-72. -/
def asmA (p : ProblemInput) (K0 : Buf2) (r0 : Buf1) : AsmSt :=
  let Kid := writeBlock (p.N + p.U) 0 p.N p.N idB K0
  let s := calcLoop p ⟨0, 0, Kid, r0⟩
  ⟨s.ix, s.iu,
   writeBlock s.ix s.ix p.ndxf p.ndxf p.Lxxf s.K,
   writeSeg s.ix p.ndxf p.Lxf s.r⟩

/-- The symmetrizing copy of kkt.cpp line 73:
`kkt_.block(0, ndx_+nu_, ndx_+nu_, ndx_) = kkt_.block(ndx_+nu_, 0, ndx_, ndx_+nu_).transpose()`;
for a destination entry `(i, j)` the copied source entry is `(j, i)`. -/
def transCopy (N U : Nat) (K : Buf2) : Buf2 :=
  fun i j => if i < N + U ∧ N + U ≤ j ∧ j < N + U + N then K j i else K i j

/-- The state-regularization write of kkt.cpp lines 74-76:
`if (!std::isnan(xreg_)) kkt_.block(0, 0, ndx_, ndx_).diagonal().array() += xreg_`. -/
def applyXReg (xreg : RVal) (N : Nat) (K : Buf2) : Buf2 :=
  match xreg with
  | RVal.nan => K
  | RVal.val q => addDiag 0 N q K

/-- The control-regularization write of kkt.cpp lines 77-79. -/
def applyUReg (ureg : RVal) (N U : Nat) (K : Buf2) : Buf2 :=
  match ureg with
  | RVal.nan => K
  | RVal.val q => addDiag N U q K

/-- Model of `SolverKKT::calc` (kkt.cpp lines 33-81) as a transformation of the two
buffers `kkt_` and `kktref_`, at a fixed trajectory and fixed derivative
data (the call to `problem_.calcDiff` only refreshes that data and the total
cost, neither of which feeds back into the buffers). -/
def calcBufs (p : ProblemInput) (xreg ureg : RVal) (K0 : Buf2) (r0 : Buf1) : Buf2 × Buf1 :=
  let s := asmA p K0 r0
  (applyUReg ureg p.N p.U (applyXReg xreg p.N (transCopy p.N p.U s.K)), s.r)

/-- The regularization quantity added by `applyXReg`/`applyUReg` to entry
`(i, j)` on top of the assembled value. -/
def regDelta (xreg ureg : RVal) (N U : Nat) (i j : Nat) : Rat :=
  (if i = j ∧ 0 ≤ i ∧ i < 0 + N then
    match xreg with
    | RVal.nan => 0
    | RVal.val q => q
   else 0) +
  (if i = j ∧ N ≤ i ∧ i < N + U then
    match ureg with
    | RVal.nan => 0
    | RVal.val q => q
   else 0)

/-- State of the loop in `SolverKKT::stoppingCriteria`. -/
structure StopSt where
  ix : Nat
  iu : Nat
  dF : Buf1

/-- Body of the loop of `SolverKKT::stoppingCriteria` (kkt.cpp
lines 140-148): `dF.segment(ix, ndxi) = lambdas_[t] - Fx * lambdas_[t+1]`
and `dF.segment(ndx_+iu, nui) = -Fu * lambdas_[t+1]` (the Jacobians are
applied untransposed, exactly as written in the source; the Eigen products
sum over the stored column counts `ndxi` resp. `nui`). -/
def stopStep (N : Nat) (lambdas : List Buf1) (s : StopSt) (p : Nat × StageInput) : StopSt :=
  let t := p.1
  let st := p.2
  let lamT := lambdas.getD t (fun _ => 0)
  let lamN := lambdas.getD (t + 1) (fun _ => 0)
  let dF1 := writeSeg s.ix st.ndx (fun i => lamT i - matVecN st.ndx st.Fx lamN i) s.dF
  let dF2 := writeSeg (N + s.iu) st.nu (fun i => -(matVecN st.nu st.Fu lamN i)) dF1
  ⟨s.ix + st.ndx, s.iu + st.nu, dF2⟩

/-- The stationarity vector `dF` built by `SolverKKT::stoppingCriteria`
(kkt.cpp lines 134-150): zero-initialized, the stage loop, then the terminal
write `dF.segment(ix, ndxi) = lambdas_.back()`. -/
def stopDF (p : ProblemInput) (lambdas : List Buf1) : Buf1 :=
  let s := p.stages.enum.foldl (stopStep p.N lambdas) ⟨0, 0, fun _ => 0⟩
  writeSeg s.ix p.ndxf (lambdas.getLastD (fun _ => 0)) s.dF

/-- Model of `SolverKKT::stoppingCriteria` (kkt.cpp lines 130-154):
`stop_ = (dL + dF).squaredNorm() + kktref_.segment(ndx_+nu_, ndx_).squaredNorm()`
where `dL = kktref_.segment(0, ndx_+nu_)`. -/
def stoppingCriteria (p : ProblemInput) (lambdas : List Buf1) (kktref : Buf1) : Rat :=
  (∑ i ∈ Finset.range (p.N + p.U), (kktref i + stopDF p lambdas i) ^ 2) +
    ∑ i ∈ Finset.range p.N, kktref (p.N + p.U + i) ^ 2

/-- The stationarity residual as the claim's words describe it:
`multiplier_t` minus the state-Jacobian-TRANSPOSE-propagated next multiplier
for the state part, minus the control-Jacobian-transpose-propagated next
multiplier for the control part, with the terminal multiplier at the last
stage.  Written from the specification's words, to be compared with the
source-derived `stopDF`. -/
def claimStatStep (N : Nat) (lambdas : List Buf1) (s : StopSt) (p : Nat × StageInput) : StopSt :=
  let t := p.1
  let st := p.2
  let lamT := lambdas.getD t (fun _ => 0)
  let lamN := lambdas.getD (t + 1) (fun _ => 0)
  let dF1 := writeSeg s.ix st.ndx
    (fun i => lamT i - matVecN st.ndx (transposeB st.Fx) lamN i) s.dF
  let dF2 := writeSeg (N + s.iu) st.nu
    (fun i => -(matVecN st.ndx (transposeB st.Fu) lamN i)) dF1
  ⟨s.ix + st.ndx, s.iu + st.nu, dF2⟩

/-- The full claim-side stationarity residual vector. -/
def claimStatResidual (p : ProblemInput) (lambdas : List Buf1) : Buf1 :=
  let s := p.stages.enum.foldl (claimStatStep p.N lambdas) ⟨0, 0, fun _ => 0⟩
  writeSeg s.ix p.ndxf (lambdas.getLastD (fun _ => 0)) s.dF

/-- Model of `SolverKKT::expectedImprovement` (kkt.cpp lines 120-128):
`d_(0) = -kktref_.segment(0, ndx_+nu_).dot(primal_)` and
`d_(1) = -kkt_primal_.dot(primal_)` with
`kkt_primal_ = kkt_.block(0, 0, ndx_+nu_, ndx_+nu_) * primal_`. -/
def expectedImprovement (N U : Nat) (K : Buf2) (kktref : Buf1) (primal : Buf1) : Rat × Rat :=
  let d0 := -(∑ i ∈ Finset.range (N + U), kktref i * primal i)
  let kktPrimal : Buf1 := fun i => ∑ j ∈ Finset.range (N + U), K i j * primal j
  let d1 := -(∑ i ∈ Finset.range (N + U), kktPrimal i * primal i)
  (d0, d1)

/-- The linear term as the claim's words describe it: minus the dot product
of the cost-gradient portion of the KKT residual (its first `ndx+nu`
entries) with the primal direction. -/
def claimLinearTerm (N U : Nat) (kktref : Buf1) (primal : Buf1) : Rat :=
  -(dotR (N + U) kktref primal)

/-- The quadratic term as the claim's words describe it: minus the dot
product of (the regularized cost-Hessian block of the KKT matrix, excluding
constraint rows, times the primal direction) with the primal direction. -/
def claimQuadTerm (N U : Nat) (K : Buf2) (primal : Buf1) : Rat :=
  -(dotR (N + U) (matVecN (N + U) K primal) primal)

/-- Eigen `v.segment(o, n)` on a list. -/
def segmentL (v : List Rat) (o n : Nat) : List Rat :=
  (v.drop o).take n

/-- State of the slicing loop in `SolverKKT::computeDirection`. -/
structure DirSt where
  ix : Nat
  iu : Nat
  dxs : List (List Rat)
  dus : List (List Rat)
  lambdas : List (List Rat)

/-- Body of the loop of `SolverKKT::computeDirection` (kkt.cpp
lines 106-114): `dxs_[t] = p_x.segment(ix, ndxi)`,
`dus_[t] = p_u.segment(iu, nui)`, `lambdas_[t] = dual_.segment(ix, ndxi)`. -/
def dirStep (px pu dualv : List Rat) (s : DirSt) (st : StageInput) : DirSt :=
  ⟨s.ix + st.ndx, s.iu + st.nu,
   s.dxs ++ [segmentL px s.ix st.ndx],
   s.dus ++ [segmentL pu s.iu st.nu],
   s.lambdas ++ [segmentL dualv s.ix st.ndx]⟩

/-- The slicing part of `SolverKKT::computeDirection` (kkt.cpp
lines 100-117): `p_x = primal_.segment(0, ndx_)`,
`p_u = primal_.segment(ndx_, nu_)`, the stage loop, then the terminal-stage
writes `dxs_.back() = p_x.segment(ix, ndxi)` and
`lambdas_.back() = dual_.segment(ix, ndxi)` (no control for the terminal
stage). -/
def computeDirectionSlices (p : ProblemInput) (primal dualv : List Rat) :
    List (List Rat) × List (List Rat) × List (List Rat) :=
  let px := segmentL primal 0 p.N
  let pu := segmentL primal p.N p.U
  let s := p.stages.foldl (dirStep px pu dualv) ⟨0, 0, [], [], []⟩
  (s.dxs ++ [segmentL px s.ix p.ndxf], s.dus, s.lambdas ++ [segmentL dualv s.ix p.ndxf])

/-- The trial-state loop of `SolverKKT::tryStep` (kkt.cpp lines 158-162),
over scalar (dimension-1) states with an abstract manifold `integrate`
operator: for each `t < T` the source executes
`m->get_state().integrate(xs_[t], steplength * dxs_[t], xs_try_[t + 1])`,
that is, it writes into slot `t + 1` of the trial buffer; no other slot of
`xs_try_` is written (slot 0 keeps the value given to it by
`allocateData`, namely `problem_.get_x0()`). -/
def tryStepLoop (integrate : Rat → Rat → Rat) (xs dxs : List Rat) (steplength : Rat)
    (T : Nat) (xsTry : List Rat) : List Rat :=
  (List.range T).foldl
    (fun buf t => buf.set (t + 1) (integrate (xs.getD t 0) (steplength * dxs.getD t 0))) xsTry

/-- The trial-control loop of `SolverKKT::tryStep` (kkt.cpp line 161):
`us_try_[t] = us_[t] + steplength * dus_[t]`. -/
def tryStepControls (us dus : List Rat) (steplength : Rat) (T : Nat)
    (usTry : List Rat) : List Rat :=
  (List.range T).foldl
    (fun buf t => buf.set t (us.getD t 0 + steplength * dus.getD t 0)) usTry

/-- Sum of the running tangent dimensions of a stage list. -/
def sumNdx (l : List (Nat × StageInput)) : Nat :=
  (l.map (fun q => q.2.ndx)).sum

/-- Sum of the running control dimensions of a stage list. -/
def sumNu (l : List (Nat × StageInput)) : Nat :=
  (l.map (fun q => q.2.nu)).sum

/-- In-bounds predicate for a regularization scalar: an exact value inside
`[regmin, regmax]`. -/
def regInB (x : RVal) : Prop :=
  ∃ q : Rat, x = RVal.val q ∧ regmin ≤ q ∧ q ≤ regmax

/-- A concrete oracle whose `tryStep` always throws and whose direction
computation never does; used as witness input. -/
def oAllReject : IterOracle :=
  ⟨fun _ => false, fun _ => true, fun _ => false, false⟩

/-- A concrete solver state used as witness input: both regularizations at
`1e8`, so a single increase reaches `regmax`. -/
def sNearMax : KKTState :=
  ⟨RVal.val 100000000, RVal.val 100000000, 1, false, false⟩

/-- A concrete solver state with in-bounds regularization, used as witness
input. -/
def sMid : KKTState :=
  ⟨RVal.val 1, RVal.val 1, 1, false, false⟩

/-- A concrete one-stage scalar problem used as witness input: one running
stage with `ndx = nu = 1` and a terminal stage with `ndx = 1`. -/
def pScalar : ProblemInput :=
  ⟨[⟨1, 1, fun _ _ => 2, fun _ _ => 0, fun _ _ => 3, fun _ _ => 1, fun _ _ => 1,
     fun _ => 1, fun _ => 1, fun _ => 0⟩],
   1, fun _ _ => 4, fun _ => 1, fun _ => 0⟩

/-- Multipliers (two stages worth, all zero) for the `C3` counterexample. -/
def lamZero : List Buf1 := [fun _ => 0, fun _ => 0]

/-- KKT residual for the `C3` counterexample: cost-gradient entry 1 at
index 0, zero elsewhere (in particular the dynamics-gap portion, indices 3
and 4, is zero). -/
def refC3 : Buf1 := fun i => if i = 0 then 1 else 0

end KKTSolver

namespace KKTSolver

theorem regmin_pos : 0 < regmin := by norm_num [regmin]

theorem regmin_le_regmax : regmin ≤ regmax := by norm_num [regmin, regmax]

/-- The increase step: multiply by `regfactor`, cap at `regmax`, copy to the
control regularization. -/
theorem increase_val (q : Rat) (u : RVal) :
    increaseRegularization (RVal.val q, u) =
      if regmax < q * regfactor then (RVal.val regmax, RVal.val regmax)
      else (RVal.val (q * regfactor), RVal.val (q * regfactor)) := by
  unfold increaseRegularization RVal.mulC RVal.gtC
  by_cases h : regmax < q * regfactor <;> simp [h]

/-- The decrease step: divide by `regfactor`, floor at `regmin`, copy to the
control regularization. -/
theorem decrease_val (q : Rat) (u : RVal) :
    decreaseRegularization (RVal.val q, u) =
      if q / regfactor < regmin then (RVal.val regmin, RVal.val regmin)
      else (RVal.val (q / regfactor), RVal.val (q / regfactor)) := by
  unfold decreaseRegularization RVal.divC RVal.ltC
  by_cases h : q / regfactor < regmin <;> simp [h]

theorem le_mul_regfactor (q : Rat) (h0 : 0 ≤ q) : q ≤ q * regfactor := by
  have h := mul_le_mul_of_nonneg_left (show (1 : Rat) ≤ regfactor by norm_num [regfactor]) h0
  simpa using h

theorem increase_pair_eq (s : RVal × RVal) :
    (increaseRegularization s).1 = (increaseRegularization s).2 := rfl

theorem decrease_pair_eq (s : RVal × RVal) :
    (decreaseRegularization s).1 = (decreaseRegularization s).2 := rfl

theorem increase_inB (s : RVal × RVal) (h : regInB s.1) :
    regInB (increaseRegularization s).1 ∧ regInB (increaseRegularization s).2 := by
  obtain ⟨q, hq, h1, h2⟩ := h
  obtain ⟨x, u⟩ := s
  cases hq
  rw [increase_val]
  by_cases h : regmax < q * regfactor <;> simp only [h, if_true, if_false, ite_true, ite_false]
  · exact ⟨⟨regmax, rfl, regmin_le_regmax, le_refl _⟩, ⟨regmax, rfl, regmin_le_regmax, le_refl _⟩⟩
  · have h0 : (0 : Rat) < q := lt_of_lt_of_le regmin_pos h1
    have hf : q ≤ q * regfactor := le_mul_regfactor q h0.le
    have hmin : regmin ≤ q * regfactor := le_trans h1 hf
    have hmax : q * regfactor ≤ regmax := not_lt.mp h
    exact ⟨⟨q * regfactor, rfl, hmin, hmax⟩, ⟨q * regfactor, rfl, hmin, hmax⟩⟩

theorem decrease_inB (s : RVal × RVal) (h : regInB s.1) :
    regInB (decreaseRegularization s).1 ∧ regInB (decreaseRegularization s).2 := by
  obtain ⟨q, hq, h1, h2⟩ := h
  obtain ⟨x, u⟩ := s
  cases hq
  rw [decrease_val]
  by_cases h : q / regfactor < regmin <;> simp only [h, if_true, if_false, ite_true, ite_false]
  · exact ⟨⟨regmin, rfl, le_refl _, regmin_le_regmax⟩, ⟨regmin, rfl, le_refl _, regmin_le_regmax⟩⟩
  · have h0 : (0 : Rat) < q := lt_of_lt_of_le regmin_pos h1
    have hf : q / regfactor ≤ q := by
      rw [div_le_iff₀ (by norm_num [regfactor] : (0 : Rat) < regfactor)]
      exact le_mul_regfactor q h0.le
    have hmin : regmin ≤ q / regfactor := not_lt.mp h
    have hmax : q / regfactor ≤ regmax := le_trans hf h2
    exact ⟨⟨q / regfactor, rfl, hmin, hmax⟩, ⟨q / regfactor, rfl, hmin, hmax⟩⟩

theorem increase_val_not_nan (s : RVal × RVal) (h : s.1.isnan = false) :
    (increaseRegularization s).1.isnan = false ∧ (increaseRegularization s).2.isnan = false := by
  obtain ⟨x, u⟩ := s
  cases x with
  | nan => simp [RVal.isnan] at h
  | val q =>
    rw [increase_val]
    by_cases hc : regmax < q * regfactor <;> simp [hc, RVal.isnan]

theorem decrease_val_not_nan (s : RVal × RVal) (h : s.1.isnan = false) :
    (decreaseRegularization s).1.isnan = false ∧ (decreaseRegularization s).2.isnan = false := by
  obtain ⟨x, u⟩ := s
  cases x with
  | nan => simp [RVal.isnan] at h
  | val q =>
    rw [decrease_val]
    by_cases hc : q / regfactor < regmin <;> simp [hc, RVal.isnan]

/-- If one iteration of the outer solve loop proceeds to a next state, the
new regularization pair is the old one transformed by the identity, by
`decreaseRegularization`, by `increaseRegularization`, or by their
composition: those are the only regularization writes in the loop body. -/
theorem iterStep_next_regs (o : IterOracle) (s s1 : KKTState)
    (h : iterStep o s = StepOut.next s1) :
    (s1.xreg, s1.ureg) = (s.xreg, s.ureg) ∨
    (s1.xreg, s1.ureg) = decreaseRegularization (s.xreg, s.ureg) ∨
    (s1.xreg, s1.ureg) = increaseRegularization (s.xreg, s.ureg) ∨
    (s1.xreg, s1.ureg) = increaseRegularization (decreaseRegularization (s.xreg, s.ureg)) := by
  unfold iterStep at h
  rcases hd : dirLoopFuel o.dirFails s.xreg true 2 with _ | d
  · rw [hd] at h; exact absurd h (by simp)
  · rw [hd] at h
    cases d with
    | exitFalse => exact absurd h (by simp)
    | success rc =>
      simp only [finishIter] at h
      generalize hls : lineSearchRun o.tryFails (fun a => o.acceptExtra a || !s.isFeasible)
        alphas s.steplength = ls at h
      obtain ⟨step, acc⟩ := ls
      generalize hr1 :
        (if thStep < step then decreaseRegularization (s.xreg, s.ureg) else (s.xreg, s.ureg))
          = r1 at h
      have hr1d : r1 = (s.xreg, s.ureg) ∨ r1 = decreaseRegularization (s.xreg, s.ureg) := by
        by_cases hth : thStep < step
        · right; rw [← hr1]; simp [hth]
        · left; rw [← hr1]; simp [hth]
      by_cases hstep : step = alphas.getLastD 0
      · rw [if_pos hstep] at h
        by_cases hb : (increaseRegularization r1).1.eqC regmax = true
        · rw [if_pos hb] at h; exact absurd h (by simp)
        · rw [if_neg hb] at h
          by_cases hc : ((if acc = true then s.isFeasible else s.wasFeasible) &&
              o.stopSmall) = true
          · rw [if_pos hc] at h; exact absurd h (by simp)
          · rw [if_neg hc] at h
            cases h
            rcases hr1d with h1 | h1 <;> rw [h1] <;> simp
      · rw [if_neg hstep] at h
        by_cases hc : ((if acc = true then s.isFeasible else s.wasFeasible) &&
            o.stopSmall) = true
        · rw [if_pos hc] at h; exact absurd h (by simp)
        · rw [if_neg hc] at h
          cases h
          rcases hr1d with h1 | h1 <;> rw [h1] <;> simp

end KKTSolver

namespace KKTSolver

/-- With a direction computation that keeps failing on retries and a
regularization different from `regmax`, the retry loop never terminates,
whatever the fuel: the handler neither changes the regularization nor the
reassembly flag after the first failure. -/
theorem dirLoopFalseNone (fails : Bool → Bool) (x : RVal) (hc : fails false = true)
    (he : x.eqC regmax = false) : ∀ n, dirLoopFuel fails x false n = none := by
  intro n
  induction n with
  | zero => rfl
  | succ n ih => simp [dirLoopFuel, hc, he, ih]

/-- Two units of fuel decide the retry loop: with a deterministic failure
oracle, any larger fuel gives the same result, so `iterStep` may run the
loop with fuel 2 and read `none` as divergence. -/
theorem dirLoopStable (fails : Bool → Bool) (x : RVal) (n : Nat) :
    dirLoopFuel fails x true (n + 2) = dirLoopFuel fails x true 2 := by
  by_cases hb : fails true = true
  · by_cases he : x.eqC regmax = true
    · simp [dirLoopFuel, hb, he]
    · have he2 : x.eqC regmax = false := by simpa using he
      by_cases hc : fails false = true
      · simp [dirLoopFuel, hb, he2, hc, dirLoopFalseNone fails x hc he2]
      · have hc2 : fails false = false := by simpa using hc
        simp [dirLoopFuel, hb, he2, hc2]
  · have hb2 : fails true = false := by simpa using hb
    simp [dirLoopFuel, hb2]

/-- Characterization of one iteration of `solve` when every `tryStep` call
throws and the direction computation succeeds: the line search exhausts all
candidates, `steplength_` ends at the smallest candidate `1/2^9`, the
regularization pair is increased once, and the iteration either returns
false (when the increased `xreg_` equals `regmax_`) or proceeds with no
acceptance. -/
theorem iterStep_allReject (o : IterOracle) (s : KKTState)
    (htf : o.tryFails = fun _ => true) (hdf : o.dirFails = fun _ => false)
    (hwf : s.wasFeasible = false) :
    iterStep o s =
      if (increaseRegularization (s.xreg, s.ureg)).1.eqC regmax = true then StepOut.exit false
      else StepOut.next ⟨(increaseRegularization (s.xreg, s.ureg)).1,
        (increaseRegularization (s.xreg, s.ureg)).2, 1 / 2 ^ 9, false, s.isFeasible⟩ := by
  have hdir : dirLoopFuel o.dirFails s.xreg true 2 = some (DirResult.success true) := by
    rw [hdf]; rfl
  have hls : lineSearchRun o.tryFails (fun a => o.acceptExtra a || !s.isFeasible) alphas
      s.steplength = (1 / 2 ^ 9, false) := by
    rw [htf]; rfl
  have hth : ¬ (thStep < (1 : Rat) / 2 ^ 9) := by norm_num [thStep]
  have hlast : ((1 : Rat) / 2 ^ 9) = alphas.getLastD 0 := rfl
  unfold iterStep
  rw [hdir]
  simp only [hls, finishIter, hwf, Bool.false_and, hth, ite_false, if_neg hth, if_pos hlast,
    Bool.false_eq_true, if_false]

/-- One all-rejecting iteration from the concrete state `sMid`, used by the
witnesses below. -/
theorem iterStep_allReject_sMid :
    iterStep oAllReject sMid =
      StepOut.next ⟨RVal.val 10, RVal.val 10, 1 / 2 ^ 9, false, false⟩ := by
  rw [iterStep_allReject oAllReject sMid rfl rfl rfl]
  norm_num [sMid, increaseRegularization, RVal.mulC, RVal.gtC, RVal.eqC, regmax, regfactor]

/-- Claim C1: evaluation of the direction-computation retry loop of `solve`
(kkt.cpp lines 179-192) at failing inputs.  With `computeDirection` throwing
exactly when it re-derives (`recalc = true`, the `problem_.calcDiff` call)
and `xreg_ = 1 < regmax`, the loop exits successfully after one retry with
`recalc = false` — the regularization is not an input or output of the loop
body, hence unchanged, contradicting the claimed escalation; and with a
persistently failing direction computation below `regmax`, the loop never
terminates for any fuel, since the handler never increases the
regularization. -/
theorem dirLoop_no_escalation :
    dirLoopFuel (fun recalc => recalc) (RVal.val 1) true 2 =
      some (DirResult.success false) ∧
    ∀ n : Nat, dirLoopFuel (fun _ => true) (RVal.val 1) true n = none := by
  constructor
  · decide
  · intro n
    have he : (RVal.val 1).eqC regmax = false := by decide
    cases n with
    | zero => rfl
    | succ n => simp [dirLoopFuel, he, dirLoopFalseNone (fun _ => true) (RVal.val 1) rfl he n]

/-- Claim C9: the state and control regularizations are kept equal by every
operation of `solve` that modifies them: the initialization writes the same
value to both, `increaseRegularization` and `decreaseRegularization`
overwrite `ureg_` with the updated `xreg_`, and consequently one whole
iteration of the solve loop preserves equality of the two values. -/
theorem regs_stay_equal :
    (∀ r : RVal, (solveInitRegs r).1 = (solveInitRegs r).2) ∧
    (∀ s : RVal × RVal, (increaseRegularization s).1 = (increaseRegularization s).2) ∧
    (∀ s : RVal × RVal, (decreaseRegularization s).1 = (decreaseRegularization s).2) ∧
    (∀ (o : IterOracle) (s s1 : KKTState), s.xreg = s.ureg →
      iterStep o s = StepOut.next s1 → s1.xreg = s1.ureg) := by
  refine ⟨?_, fun s => rfl, fun s => rfl, ?_⟩
  · intro r; unfold solveInitRegs; by_cases h : r.isnan <;> simp [h]
  · intro o s s1 hsame h
    rcases iterStep_next_regs o s s1 h with h1 | h1 | h1 | h1
    · exact (congrArg Prod.fst h1).trans (hsame.trans (congrArg Prod.snd h1).symm)
    · exact (congrArg Prod.fst h1).trans
        ((decrease_pair_eq (s.xreg, s.ureg)).trans (congrArg Prod.snd h1).symm)
    · exact (congrArg Prod.fst h1).trans
        ((increase_pair_eq (s.xreg, s.ureg)).trans (congrArg Prod.snd h1).symm)
    · exact (congrArg Prod.fst h1).trans
        ((increase_pair_eq (decreaseRegularization (s.xreg, s.ureg))).trans
          (congrArg Prod.snd h1).symm)

/-- Witness for C9 at concrete inputs: one all-rejecting iteration from
state `sMid` (both regularizations `1`). -/
theorem regs_stay_equal_witness :
    ∃ s1 : KKTState, iterStep oAllReject sMid = StepOut.next s1 ∧ s1.xreg = s1.ureg :=
  ⟨⟨RVal.val 10, RVal.val 10, 1 / 2 ^ 9, false, false⟩, iterStep_allReject_sMid,
    regs_stay_equal.2.2.2 oAllReject sMid _ rfl iterStep_allReject_sMid⟩

/-- Claim C10: when `solve` receives a NaN initial regularization, both
`xreg_` and `ureg_` are set to exactly 0 (not to the NaN sentinel); the loop
updates keep them non-NaN, and for any non-NaN value the assembler takes the
branch adding the regularization scalar to the Hessian diagonal
(`applyXReg`/`applyUReg` reduce to `addDiag` on values, never to the
skipping branch). -/
theorem nan_reginit_gives_zero :
    solveInitRegs RVal.nan = (RVal.val 0, RVal.val 0) ∧
    (∀ (o : IterOracle) (s s1 : KKTState), s.xreg.isnan = false → s.ureg.isnan = false →
      iterStep o s = StepOut.next s1 → s1.xreg.isnan = false ∧ s1.ureg.isnan = false) ∧
    (∀ (q : Rat) (N : Nat) (K : Buf2), applyXReg (RVal.val q) N K = addDiag 0 N q K) ∧
    (∀ (q : Rat) (N U : Nat) (K : Buf2), applyUReg (RVal.val q) N U K = addDiag N U q K) := by
  refine ⟨rfl, ?_, fun q N K => rfl, fun q N U K => rfl⟩
  intro o s s1 hx hu h
  rcases iterStep_next_regs o s s1 h with h1 | h1 | h1 | h1
  · exact ⟨(congrArg (fun p => RVal.isnan p.1) h1).trans hx,
      (congrArg (fun p => RVal.isnan p.2) h1).trans hu⟩
  · have key := decrease_val_not_nan (s.xreg, s.ureg) hx
    exact ⟨(congrArg (fun p => RVal.isnan p.1) h1).trans key.1,
      (congrArg (fun p => RVal.isnan p.2) h1).trans key.2⟩
  · have key := increase_val_not_nan (s.xreg, s.ureg) hx
    exact ⟨(congrArg (fun p => RVal.isnan p.1) h1).trans key.1,
      (congrArg (fun p => RVal.isnan p.2) h1).trans key.2⟩
  · have kd := decrease_val_not_nan (s.xreg, s.ureg) hx
    have key := increase_val_not_nan (decreaseRegularization (s.xreg, s.ureg)) kd.1
    exact ⟨(congrArg (fun p => RVal.isnan p.1) h1).trans key.1,
      (congrArg (fun p => RVal.isnan p.2) h1).trans key.2⟩

/-- Witness for C10 at concrete inputs. -/
theorem nan_reginit_gives_zero_witness :
    ∃ s1 : KKTState, iterStep oAllReject sMid = StepOut.next s1 ∧
      s1.xreg.isnan = false ∧ s1.ureg.isnan = false :=
  ⟨⟨RVal.val 10, RVal.val 10, 1 / 2 ^ 9, false, false⟩, iterStep_allReject_sMid,
    nan_reginit_gives_zero.2.1 oAllReject sMid _ rfl rfl iterStep_allReject_sMid⟩

/-- Claim C5 counterexample: `solve` called with a NaN initial
regularization sets both regularization values to exactly 0, which lies
strictly below `regmin`, so the claimed invariant that the initialization
keeps both values within `[regmin, regmax]` fails. -/
theorem solveInit_below_regmin :
    solveInitRegs RVal.nan = (RVal.val 0, RVal.val 0) ∧ ¬ regInB (RVal.val 0) := by
  refine ⟨rfl, ?_⟩
  rintro ⟨q, hq, h1, h2⟩
  cases hq
  norm_num [regmin] at h1

/-- Claim C5 (amended): `increaseRegularization` multiplies by the fixed
factor and caps the result at `regmax`, `decreaseRegularization` divides by
the same factor and floors the result at `regmin`, and both keep the pair
inside `[regmin, regmax]` whenever the state value is in bounds, so the
regularizations stay bounded across entire iterations of `solve`; the
initialization performed by `solve`, however, sets both values to `reginit`
as given (or to 0 when `reginit` is NaN), which need not lie within the
bounds. -/
theorem reg_bounds_preserved :
    (∀ (q : Rat) (u : RVal), increaseRegularization (RVal.val q, u) =
      if regmax < q * regfactor then (RVal.val regmax, RVal.val regmax)
      else (RVal.val (q * regfactor), RVal.val (q * regfactor))) ∧
    (∀ (q : Rat) (u : RVal), decreaseRegularization (RVal.val q, u) =
      if q / regfactor < regmin then (RVal.val regmin, RVal.val regmin)
      else (RVal.val (q / regfactor), RVal.val (q / regfactor))) ∧
    (∀ s : RVal × RVal, regInB s.1 →
      regInB (increaseRegularization s).1 ∧ regInB (increaseRegularization s).2 ∧
      regInB (decreaseRegularization s).1 ∧ regInB (decreaseRegularization s).2) ∧
    (∀ (o : IterOracle) (s s1 : KKTState), regInB s.xreg → regInB s.ureg →
      iterStep o s = StepOut.next s1 → regInB s1.xreg ∧ regInB s1.ureg) ∧
    solveInitRegs RVal.nan = (RVal.val 0, RVal.val 0) ∧
    (∀ r : RVal, r.isnan = false → solveInitRegs r = (r, r)) := by
  refine ⟨increase_val, decrease_val, ?_, ?_, rfl, ?_⟩
  · intro s h
    exact ⟨(increase_inB s h).1, (increase_inB s h).2, (decrease_inB s h).1,
      (decrease_inB s h).2⟩
  · intro o s s1 hx hu h
    rcases iterStep_next_regs o s s1 h with h1 | h1 | h1 | h1
    · have ha : s1.xreg = s.xreg := congrArg Prod.fst h1
      have hb : s1.ureg = s.ureg := congrArg Prod.snd h1
      rw [ha, hb]; exact ⟨hx, hu⟩
    · have ha : s1.xreg = (decreaseRegularization (s.xreg, s.ureg)).1 := congrArg Prod.fst h1
      have hb : s1.ureg = (decreaseRegularization (s.xreg, s.ureg)).2 := congrArg Prod.snd h1
      rw [ha, hb]
      exact ⟨(decrease_inB (s.xreg, s.ureg) hx).1, (decrease_inB (s.xreg, s.ureg) hx).2⟩
    · have ha : s1.xreg = (increaseRegularization (s.xreg, s.ureg)).1 := congrArg Prod.fst h1
      have hb : s1.ureg = (increaseRegularization (s.xreg, s.ureg)).2 := congrArg Prod.snd h1
      rw [ha, hb]
      exact ⟨(increase_inB (s.xreg, s.ureg) hx).1, (increase_inB (s.xreg, s.ureg) hx).2⟩
    · have kd := decrease_inB (s.xreg, s.ureg) hx
      have key := increase_inB (decreaseRegularization (s.xreg, s.ureg)) kd.1
      have ha : s1.xreg = (increaseRegularization (decreaseRegularization (s.xreg, s.ureg))).1 :=
        congrArg Prod.fst h1
      have hb : s1.ureg = (increaseRegularization (decreaseRegularization (s.xreg, s.ureg))).2 :=
        congrArg Prod.snd h1
      rw [ha, hb]
      exact ⟨key.1, key.2⟩
  · intro r h; unfold solveInitRegs; simp [h]

/-- Witness for the amended C5 at concrete inputs. -/
theorem reg_bounds_preserved_witness :
    regInB sMid.xreg ∧
    ∃ s1 : KKTState, iterStep oAllReject sMid = StepOut.next s1 ∧
      regInB s1.xreg ∧ regInB s1.ureg := by
  have hin : regInB sMid.xreg := ⟨1, rfl, by norm_num [regmin], by norm_num [regmax]⟩
  exact ⟨hin, ⟨RVal.val 10, RVal.val 10, 1 / 2 ^ 9, false, false⟩, iterStep_allReject_sMid,
    reg_bounds_preserved.2.2.2.1 oAllReject sMid _ hin hin iterStep_allReject_sMid⟩

end KKTSolver

namespace KKTSolver

/-- Running the solve loop with oracles that reject every trial step: no
step is ever accepted, the regularization pair is increased once per
iteration, and the loop returns false at the first iteration whose increased
`xreg_` equals `regmax_` (or when the iteration budget runs out). -/
theorem solve_allReject (oracles : List IterOracle) (s : KKTState)
    (h1 : ∀ o ∈ oracles, o.tryFails = fun _ => true)
    (h2 : ∀ o ∈ oracles, o.dirFails = fun _ => false)
    (h3 : s.wasFeasible = false) :
    solveIters oracles s =
      (SolveRes.ok false,
       match firstMaxIdx (s.xreg, s.ureg) oracles.length with
       | some k => k + 1
       | none => oracles.length) := by
  induction oracles generalizing s with
  | nil => rfl
  | cons o rest ih =>
    have ho1 : o.tryFails = fun _ => true := h1 o (List.mem_cons_self o rest)
    have ho2 : o.dirFails = fun _ => false := h2 o (List.mem_cons_self o rest)
    have hr1 : ∀ o2 ∈ rest, o2.tryFails = fun _ => true :=
      fun o2 ho2m => h1 o2 (List.mem_cons_of_mem o ho2m)
    have hr2 : ∀ o2 ∈ rest, o2.dirFails = fun _ => false :=
      fun o2 ho2m => h2 o2 (List.mem_cons_of_mem o ho2m)
    by_cases hb : (increaseRegularization (s.xreg, s.ureg)).1.eqC regmax = true
    · simp only [solveIters, iterStep_allReject o s ho1 ho2 h3, hb, if_pos, ite_true,
        List.length_cons, firstMaxIdx]
    · have hnext := ih ⟨(increaseRegularization (s.xreg, s.ureg)).1,
        (increaseRegularization (s.xreg, s.ureg)).2, 1 / 2 ^ 9, false, s.isFeasible⟩ hr1 hr2 rfl
      simp only [solveIters, iterStep_allReject o s ho1 ho2 h3, hb, ite_false,
        List.length_cons, firstMaxIdx, if_neg, Bool.false_eq_true, if_false] at hnext ⊢
      rw [hnext]
      cases hfm : firstMaxIdx (increaseRegularization (s.xreg, s.ureg)) rest.length with
      | none => simp [hfm]
      | some k => simp [hfm]

end KKTSolver

namespace KKTSolver

/-- Claim C6: when every candidate step length fails trial-cost evaluation
(and the direction computation itself succeeds), each such iteration of
`solve` ends with `steplength_` equal to the smallest candidate `1/2^9` and
the regularization increased once, and `solve` returns false — immediately
at the first iteration whose increased regularization equals `regmax`, or
after exhausting the iteration budget otherwise; it never returns true and
no step is ever accepted. -/
theorem allReject_solve_fails (oracles : List IterOracle) (s : KKTState)
    (h1 : ∀ o ∈ oracles, o.tryFails = fun _ => true)
    (h2 : ∀ o ∈ oracles, o.dirFails = fun _ => false)
    (h3 : s.wasFeasible = false) :
    (∀ (o : IterOracle) (s1 : KKTState), o.tryFails = (fun _ => true) →
      o.dirFails = (fun _ => false) → s1.wasFeasible = false →
      iterStep o s1 =
        if (increaseRegularization (s1.xreg, s1.ureg)).1.eqC regmax = true then
          StepOut.exit false
        else StepOut.next ⟨(increaseRegularization (s1.xreg, s1.ureg)).1,
          (increaseRegularization (s1.xreg, s1.ureg)).2, 1 / 2 ^ 9, false, s1.isFeasible⟩) ∧
    solveIters oracles s =
      (SolveRes.ok false,
       match firstMaxIdx (s.xreg, s.ureg) oracles.length with
       | some k => k + 1
       | none => oracles.length) :=
  ⟨fun o s1 a b c => iterStep_allReject o s1 a b c, solve_allReject oracles s h1 h2 h3⟩

/-- Witness for C6 at concrete inputs: two all-rejecting iterations allowed,
initial regularization `1e8`; the first increase reaches `regmax = 1e9`, so
`solve` returns false after exactly one iteration. -/
theorem allReject_solve_fails_witness :
    solveIters [oAllReject, oAllReject] sNearMax = (SolveRes.ok false, 1) := by
  have hmem : ∀ o ∈ [oAllReject, oAllReject], o.tryFails = fun _ : Rat => true := by
    intro o ho
    rcases List.mem_cons.mp ho with rfl | ho2
    · rfl
    · rcases List.mem_cons.mp ho2 with rfl | ho3
      · rfl
      · exact absurd ho3 (List.not_mem_nil o)
  have hmem2 : ∀ o ∈ [oAllReject, oAllReject], o.dirFails = fun _ : Bool => false := by
    intro o ho
    rcases List.mem_cons.mp ho with rfl | ho2
    · rfl
    · rcases List.mem_cons.mp ho2 with rfl | ho3
      · rfl
      · exact absurd ho3 (List.not_mem_nil o)
  have h := (allReject_solve_fails [oAllReject, oAllReject] sNearMax hmem hmem2 rfl).2
  rw [h]
  norm_num [firstMaxIdx, sNearMax, increaseRegularization, RVal.mulC, RVal.gtC, RVal.eqC,
    regmax, regfactor]

end KKTSolver

namespace KKTSolver

/-- Claim C8: `expectedImprovement` returns `(d0, d1)` with `d0` equal to
minus the dot product of the cost-gradient portion of the KKT residual (its
first `ndx+nu` entries) with the primal direction, and `d1` equal to minus
the dot product of (the regularized cost-Hessian block
`kkt_.block(0,0,ndx+nu,ndx+nu)` of the KKT matrix, excluding the constraint
rows, times the primal direction) with the primal direction. -/
theorem expectedImprovement_matches_claim (N U : Nat) (K : Buf2) (kktref primal : Buf1) :
    expectedImprovement N U K kktref primal =
      (claimLinearTerm N U kktref primal, claimQuadTerm N U K primal) := rfl

/-- The slicing loop of `computeDirection`: offsets advance by the stage
dimensions, one slice is appended per stage, and flattening the accumulated
slices yields the contiguous segment between the initial and final
offsets. -/
theorem dirFold_spec (px pu dualv : List Rat) (stages : List StageInput)
    (ix iu : Nat) (X Y Z : List (List Rat)) :
    (stages.foldl (dirStep px pu dualv) ⟨ix, iu, X, Y, Z⟩).ix =
        ix + (stages.map StageInput.ndx).sum ∧
    (stages.foldl (dirStep px pu dualv) ⟨ix, iu, X, Y, Z⟩).iu =
        iu + (stages.map StageInput.nu).sum ∧
    (stages.foldl (dirStep px pu dualv) ⟨ix, iu, X, Y, Z⟩).dxs.length =
        X.length + stages.length ∧
    (stages.foldl (dirStep px pu dualv) ⟨ix, iu, X, Y, Z⟩).dus.length =
        Y.length + stages.length ∧
    (stages.foldl (dirStep px pu dualv) ⟨ix, iu, X, Y, Z⟩).lambdas.length =
        Z.length + stages.length ∧
    (stages.foldl (dirStep px pu dualv) ⟨ix, iu, X, Y, Z⟩).dxs.flatten =
        X.flatten ++ (px.drop ix).take ((stages.map StageInput.ndx).sum) ∧
    (stages.foldl (dirStep px pu dualv) ⟨ix, iu, X, Y, Z⟩).dus.flatten =
        Y.flatten ++ (pu.drop iu).take ((stages.map StageInput.nu).sum) ∧
    (stages.foldl (dirStep px pu dualv) ⟨ix, iu, X, Y, Z⟩).lambdas.flatten =
        Z.flatten ++ (dualv.drop ix).take ((stages.map StageInput.ndx).sum) := by
  induction stages generalizing ix iu X Y Z with
  | nil => simp
  | cons st rest ih =>
    obtain ⟨ha, hb, hc, hdl, he, hf, hg, hh⟩ :=
      ih (ix + st.ndx) (iu + st.nu) (X ++ [segmentL px ix st.ndx])
        (Y ++ [segmentL pu iu st.nu]) (Z ++ [segmentL dualv ix st.ndx])
    refine ⟨?_, ?_, ?_, ?_, ?_, ?_, ?_, ?_⟩
    · rw [List.foldl_cons]; rw [show dirStep px pu dualv ⟨ix, iu, X, Y, Z⟩ st =
        ⟨ix + st.ndx, iu + st.nu, X ++ [segmentL px ix st.ndx], Y ++ [segmentL pu iu st.nu],
          Z ++ [segmentL dualv ix st.ndx]⟩ from rfl]
      rw [ha]; simp [Nat.add_assoc]
    · rw [List.foldl_cons]; rw [show dirStep px pu dualv ⟨ix, iu, X, Y, Z⟩ st =
        ⟨ix + st.ndx, iu + st.nu, X ++ [segmentL px ix st.ndx], Y ++ [segmentL pu iu st.nu],
          Z ++ [segmentL dualv ix st.ndx]⟩ from rfl]
      rw [hb]; simp [Nat.add_assoc]
    · rw [List.foldl_cons]; rw [show dirStep px pu dualv ⟨ix, iu, X, Y, Z⟩ st =
        ⟨ix + st.ndx, iu + st.nu, X ++ [segmentL px ix st.ndx], Y ++ [segmentL pu iu st.nu],
          Z ++ [segmentL dualv ix st.ndx]⟩ from rfl]
      rw [hc]; simp; omega
    · rw [List.foldl_cons]; rw [show dirStep px pu dualv ⟨ix, iu, X, Y, Z⟩ st =
        ⟨ix + st.ndx, iu + st.nu, X ++ [segmentL px ix st.ndx], Y ++ [segmentL pu iu st.nu],
          Z ++ [segmentL dualv ix st.ndx]⟩ from rfl]
      rw [hdl]; simp; omega
    · rw [List.foldl_cons]; rw [show dirStep px pu dualv ⟨ix, iu, X, Y, Z⟩ st =
        ⟨ix + st.ndx, iu + st.nu, X ++ [segmentL px ix st.ndx], Y ++ [segmentL pu iu st.nu],
          Z ++ [segmentL dualv ix st.ndx]⟩ from rfl]
      rw [he]; simp; omega
    · rw [List.foldl_cons]; rw [show dirStep px pu dualv ⟨ix, iu, X, Y, Z⟩ st =
        ⟨ix + st.ndx, iu + st.nu, X ++ [segmentL px ix st.ndx], Y ++ [segmentL pu iu st.nu],
          Z ++ [segmentL dualv ix st.ndx]⟩ from rfl]
      rw [hf]
      simp only [List.flatten_append, List.flatten_cons, List.flatten_nil, List.append_nil,
        List.map_cons, List.sum_cons, segmentL]
      rw [List.append_assoc]
      congr 1
      rw [List.take_add, List.drop_drop]
    · rw [List.foldl_cons]; rw [show dirStep px pu dualv ⟨ix, iu, X, Y, Z⟩ st =
        ⟨ix + st.ndx, iu + st.nu, X ++ [segmentL px ix st.ndx], Y ++ [segmentL pu iu st.nu],
          Z ++ [segmentL dualv ix st.ndx]⟩ from rfl]
      rw [hg]
      simp only [List.flatten_append, List.flatten_cons, List.flatten_nil, List.append_nil,
        List.map_cons, List.sum_cons, segmentL]
      rw [List.append_assoc]
      congr 1
      rw [List.take_add, List.drop_drop]
    · rw [List.foldl_cons]; rw [show dirStep px pu dualv ⟨ix, iu, X, Y, Z⟩ st =
        ⟨ix + st.ndx, iu + st.nu, X ++ [segmentL px ix st.ndx], Y ++ [segmentL pu iu st.nu],
          Z ++ [segmentL dualv ix st.ndx]⟩ from rfl]
      rw [hh]
      simp only [List.flatten_append, List.flatten_cons, List.flatten_nil, List.append_nil,
        List.map_cons, List.sum_cons, segmentL]
      rw [List.append_assoc]
      congr 1
      rw [List.take_add, List.drop_drop]

end KKTSolver


namespace KKTSolver

/-- Claim C7: after `computeDirection`, concatenating the per-stage state
increments `dxs_` (T+1 entries), the per-stage control increments `dus_`
(T entries) and the per-stage multipliers `lambdas_` (T+1 entries), each
sliced with its stage's own tangent/control dimension as stride, reproduces
exactly the primal vector (state part `p_x` then control part `p_u`) and
the dual vector of the KKT solution; the terminal stage receives only a
state increment and a multiplier and no control increment. -/
theorem computeDirection_consistent (p : ProblemInput) (primal dualv : List Rat)
    (hp : primal.length = p.N + p.U) (hd : dualv.length = p.N) :
    (computeDirectionSlices p primal dualv).1.flatten = primal.take p.N ∧
    (computeDirectionSlices p primal dualv).2.1.flatten = primal.drop p.N ∧
    (computeDirectionSlices p primal dualv).2.2.flatten = dualv ∧
    primal.take p.N ++ primal.drop p.N = primal ∧
    (computeDirectionSlices p primal dualv).1.length = p.stages.length + 1 ∧
    (computeDirectionSlices p primal dualv).2.1.length = p.stages.length ∧
    (computeDirectionSlices p primal dualv).2.2.length = p.stages.length + 1 := by
  obtain ⟨ha, hb, hc, hdl, he, hf, hg, hh⟩ :=
    dirFold_spec (segmentL primal 0 p.N) (segmentL primal p.N p.U) dualv p.stages 0 0 [] [] []
  have hN : (p.stages.map StageInput.ndx).sum + p.ndxf = p.N := rfl
  have hU : (p.stages.map StageInput.nu).sum = p.U := rfl
  have hpx : segmentL primal 0 p.N = primal.take p.N := by
    simp [segmentL]
  have hpxlen : (primal.take p.N).length = p.N := by
    simp [hp]
  have hpu : segmentL primal p.N p.U = primal.drop p.N := by
    have h2 : (primal.drop p.N).length = p.U := by simp [hp]
    rw [segmentL, ← h2, List.take_length]
  unfold computeDirectionSlices
  refine ⟨?_, ?_, ?_, List.take_append_drop p.N primal, ?_, ?_, ?_⟩
  · rw [List.flatten_append, hf, ha]
    simp only [List.flatten_cons, List.flatten_nil, List.append_nil, List.nil_append,
      Nat.zero_add, List.drop_zero, segmentL, hpx]
    rw [← List.take_add, hN, List.take_take]
    simp
  · rw [hg, hpu]
    simp only [List.nil_append, Nat.zero_add, List.drop_zero, hU]
    have h2 : (primal.drop p.N).length = p.U := by simp [hp]
    rw [← h2, List.take_length]
    simp
  · rw [List.flatten_append, hh, ha]
    simp only [List.flatten_cons, List.flatten_nil, List.append_nil, List.nil_append,
      Nat.zero_add, List.drop_zero, segmentL]
    rw [← List.take_add, hN, ← hd, List.take_length]
  · rw [List.length_append, hc]
    simp
  · rw [hdl]; simp
  · rw [List.length_append, he]
    simp

/-- Witness for C7 at concrete inputs: the one-stage scalar problem
`pScalar` (stage dimensions 1/1, terminal dimension 1), primal vector
`[5, 6, 7]` and dual vector `[8, 9]`. -/
theorem computeDirection_consistent_witness :
    ([5, 6, 7] : List Rat).length = pScalar.N + pScalar.U ∧
    (computeDirectionSlices pScalar [5, 6, 7] [8, 9]).1.flatten =
      ([5, 6, 7] : List Rat).take pScalar.N ∧
    (computeDirectionSlices pScalar [5, 6, 7] [8, 9]).2.2.flatten = [8, 9] ∧
    (computeDirectionSlices pScalar [5, 6, 7] [8, 9]).2.1.length = pScalar.stages.length :=
  ⟨rfl, (computeDirection_consistent pScalar [5, 6, 7] [8, 9] rfl rfl).1,
   (computeDirection_consistent pScalar [5, 6, 7] [8, 9] rfl rfl).2.2.1,
   (computeDirection_consistent pScalar [5, 6, 7] [8, 9] rfl rfl).2.2.2.2.2.1⟩

end KKTSolver

namespace KKTSolver

/-- Claim C3 (amended): the stopping-criterion value is non-negative for all
solver states, and it equals zero if and only if the dynamics-gap portion of
the KKT residual is exactly zero and the SUM of the cost-gradient portion of
the KKT residual and the multiplier stationarity vector `dF` (as the code
computes it, with the Jacobians applied untransposed: `lambdas_[t] - Fx *
lambdas_[t+1]` for the state part, `-Fu * lambdas_[t+1]` for the control
part, and the terminal multiplier at the last stage) is exactly zero: the
first squared norm in kkt.cpp line 151 is of `dL + dF`, not of `dF`
alone. -/
theorem stoppingCriteria_nonneg_zero_iff (p : ProblemInput) (lambdas : List Buf1)
    (kktref : Buf1) :
    0 ≤ stoppingCriteria p lambdas kktref ∧
    (stoppingCriteria p lambdas kktref = 0 ↔
      (∀ i ∈ Finset.range p.N, kktref (p.N + p.U + i) = 0) ∧
      (∀ i ∈ Finset.range (p.N + p.U), kktref i + stopDF p lambdas i = 0)) := by
  have h1 : ∀ i ∈ Finset.range (p.N + p.U), 0 ≤ (kktref i + stopDF p lambdas i) ^ 2 :=
    fun i _ => sq_nonneg _
  have h2 : ∀ i ∈ Finset.range p.N, 0 ≤ kktref (p.N + p.U + i) ^ 2 :=
    fun i _ => sq_nonneg _
  constructor
  · exact add_nonneg (Finset.sum_nonneg h1) (Finset.sum_nonneg h2)
  · unfold stoppingCriteria
    rw [add_eq_zero_iff_of_nonneg (Finset.sum_nonneg h1) (Finset.sum_nonneg h2)]
    rw [Finset.sum_eq_zero_iff_of_nonneg h1, Finset.sum_eq_zero_iff_of_nonneg h2]
    constructor
    · rintro ⟨ha, hb⟩
      exact ⟨fun i hi => by have h := hb i hi; rwa [sq_eq_zero_iff] at h,
             fun i hi => by have h := ha i hi; rwa [sq_eq_zero_iff] at h⟩
    · rintro ⟨ha, hb⟩
      exact ⟨fun i hi => by rw [hb i hi]; ring,
             fun i hi => by rw [ha i hi]; ring⟩

/-- Claim C3 counterexample: for the one-stage scalar problem `pScalar` with
all multipliers zero and a KKT residual whose dynamics-gap portion is zero,
whose stationarity residual as described by the claim (Jacobian-transpose
propagated, terminal multiplier at the last stage) is identically zero, but
whose cost-gradient entry 0 equals 1, the stopping criterion evaluates to 1,
not 0 — refuting the claimed equivalence, which omits the cost-gradient
contribution `dL`. -/
theorem stoppingCriteria_zero_iff_fails :
    (∀ i ∈ Finset.range pScalar.N, refC3 (pScalar.N + pScalar.U + i) = 0) ∧
    (∀ i ∈ Finset.range (pScalar.N + pScalar.U), claimStatResidual pScalar lamZero i = 0) ∧
    stoppingCriteria pScalar lamZero refC3 = 1 := by
  have hN : pScalar.N = 2 := rfl
  have hU : pScalar.U = 1 := rfl
  refine ⟨?_, ?_, ?_⟩
  · intro i hi
    rw [hN, hU]
    simp [refC3]
  · intro i hi
    rw [hN, hU] at hi
    simp [claimStatResidual, claimStatStep, pScalar, lamZero, writeSeg, matVecN, transposeB]
  · rw [show stoppingCriteria pScalar lamZero refC3 =
      (∑ i ∈ Finset.range (2 + 1), (refC3 i + stopDF pScalar lamZero i) ^ 2) +
        ∑ i ∈ Finset.range 2, refC3 (2 + 1 + i) ^ 2 from rfl]
    have hdF : ∀ i, stopDF pScalar lamZero i = 0 := by
      intro i
      simp [stopDF, stopStep, pScalar, lamZero, writeSeg, matVecN]
    simp [Finset.sum_range_succ, hdF, refC3]

end KKTSolver

namespace KKTSolver

/-- Claim C2 (code_bug evidence): evaluation of the `tryStep` trial-update
loops at a concrete input.  With `T = 1`, Euclidean `integrate = (+)`,
current states `xs = [2, 3]`, directions `dxs = [5, 7]`, step length 1 and
trial buffer `[100, 0]` (slot 0 holding the allocation-time `x0 = 100`),
the source's state loop produces `[100, 7]`: it writes
`integrate(xs_[0], 1 * dxs_[0]) = 7` into slot 1 and never writes slot 0,
so the trial state at stage 0 is not `integrate(xs_[0], 1 * dxs_[0]) = 7`
and the trial state at stage 1 is not `integrate(xs_[1], 1 * dxs_[1]) = 10`
as the claim requires; the control update `us_try_[t] = us_[t] +
steplength * dus_[t]` does match the claim (`[4] + 1 * [6] = [10]`). -/
theorem tryStep_writes_shifted_slot :
    tryStepLoop (fun x d => x + d) [2, 3] [5, 7] 1 1 [100, 0] = [100, 7] ∧
    tryStepControls [4] [6] 1 1 [0] = [10] ∧
    (tryStepLoop (fun x d => x + d) [2, 3] [5, 7] 1 1 [100, 0]).getD 0 0 ≠ 2 + 1 * 5 ∧
    (tryStepLoop (fun x d => x + d) [2, 3] [5, 7] 1 1 [100, 0]).getD 1 0 ≠ 3 + 1 * 7 := by
  refine ⟨?_, ?_, ?_, ?_⟩ <;>
    norm_num [tryStepLoop, tryStepControls, List.range_succ]

end KKTSolver

namespace KKTSolver

/-- Transitivity of the write/pass dichotomy at one matrix entry. -/
theorem dicho_trans {a1 a2 b1 b2 c1 c2 : Rat}
    (h2 : c1 = c2 ∨ (c1 = b1 ∧ c2 = b2)) (h1 : b1 = b2 ∨ (b1 = a1 ∧ b2 = a2)) :
    c1 = c2 ∨ (c1 = a1 ∧ c2 = a2) := by
  rcases h2 with h2 | ⟨h2a, h2b⟩
  · exact Or.inl h2
  · rcases h1 with h1 | ⟨h1a, h1b⟩
    · exact Or.inl (h2a.trans (h1.trans h2b.symm))
    · exact Or.inr ⟨h2a.trans h1a, h2b.trans h1b⟩

/-- A block write either writes the same input-determined value on two
buffers, or passes both through. -/
theorem writeBlock_dicho (r c h w : Nat) (v : Buf2) (b1 b2 : Buf2) (i j : Nat) :
    writeBlock r c h w v b1 i j = writeBlock r c h w v b2 i j ∨
      (writeBlock r c h w v b1 i j = b1 i j ∧ writeBlock r c h w v b2 i j = b2 i j) := by
  unfold writeBlock
  by_cases hc : r ≤ i ∧ i < r + h ∧ c ≤ j ∧ j < c + w
  · rw [if_pos hc, if_pos hc]; exact Or.inl rfl
  · rw [if_neg hc, if_neg hc]; exact Or.inr ⟨rfl, rfl⟩

/-- A segment write either writes the same input-determined value on two
buffers, or passes both through. -/
theorem writeSeg_dicho (o n : Nat) (v : Buf1) (b1 b2 : Buf1) (i : Nat) :
    writeSeg o n v b1 i = writeSeg o n v b2 i ∨
      (writeSeg o n v b1 i = b1 i ∧ writeSeg o n v b2 i = b2 i) := by
  unfold writeSeg
  by_cases hc : o ≤ i ∧ i < o + n
  · rw [if_pos hc, if_pos hc]; exact Or.inl rfl
  · rw [if_neg hc, if_neg hc]; exact Or.inr ⟨rfl, rfl⟩

/-- A block write preserves pointwise agreement of two buffers. -/
theorem writeBlock_agree (r c h w : Nat) (v : Buf2) (b1 b2 : Buf2) (i j : Nat)
    (hb : b1 i j = b2 i j) :
    writeBlock r c h w v b1 i j = writeBlock r c h w v b2 i j := by
  rcases writeBlock_dicho r c h w v b1 b2 i j with h1 | ⟨h1, h2⟩
  · exact h1
  · rw [h1, h2, hb]

/-- A block write outside its column range passes through. -/
theorem writeBlock_colOut (r c h w : Nat) (v : Buf2) (b : Buf2) (i j : Nat)
    (hj : c + w ≤ j) : writeBlock r c h w v b i j = b i j := by
  unfold writeBlock
  rw [if_neg]
  rintro ⟨_, _, _, h4⟩
  omega

/-- A block write at a fully covered entry yields the written value,
independently of the buffer. -/
theorem writeBlock_covered (r c h w : Nat) (v : Buf2) (b : Buf2) (i j : Nat)
    (h1 : r ≤ i) (h2 : i < r + h) (h3 : c ≤ j) (h4 : j < c + w) :
    writeBlock r c h w v b i j = v (i - r) (j - c) := by
  unfold writeBlock
  rw [if_pos ⟨h1, h2, h3, h4⟩]

/-- Offsets after the assembly stage step. -/
theorem stageStep_offsets (N U cx0 : Nat) (g : Buf1) (s : AsmSt) (p : Nat × StageInput) :
    (stageStep N U cx0 g s p).ix = s.ix + p.2.ndx ∧
    (stageStep N U cx0 g s p).iu = s.iu + p.2.nu := ⟨rfl, rfl⟩

/-- The assembly stage step satisfies the write/pass dichotomy on the KKT
matrix buffer, for two states with equal offsets. -/
theorem stageStep_K_dicho (N U cx0 : Nat) (g : Buf1) (s1 s2 : AsmSt)
    (hix : s1.ix = s2.ix) (hiu : s1.iu = s2.iu) (p : Nat × StageInput) (i j : Nat) :
    (stageStep N U cx0 g s1 p).K i j = (stageStep N U cx0 g s2 p).K i j ∨
      ((stageStep N U cx0 g s1 p).K i j = s1.K i j ∧
       (stageStep N U cx0 g s2 p).K i j = s2.K i j) := by
  obtain ⟨ix1, iu1, K1, r1⟩ := s1
  obtain ⟨ix2, iu2, K2, r2⟩ := s2
  simp only at hix hiu
  subst hix; subst hiu
  unfold stageStep
  simp only
  have d1 := writeBlock_dicho ix1 ix1 p.2.ndx p.2.ndx p.2.Lxx K1 K2 i j
  have d2 := dicho_trans (writeBlock_dicho ix1 (N + iu1) p.2.ndx p.2.nu p.2.Lxu _ _ i j) d1
  have d3 := dicho_trans
    (writeBlock_dicho (N + iu1) ix1 p.2.nu p.2.ndx (transposeB p.2.Lxu) _ _ i j) d2
  have d4 := dicho_trans
    (writeBlock_dicho (N + iu1) (N + iu1) p.2.nu p.2.nu p.2.Luu _ _ i j) d3
  have d5 := dicho_trans
    (writeBlock_dicho (N + U + cx0 + ix1) ix1 p.2.ndx p.2.ndx (negB p.2.Fx) _ _ i j) d4
  exact dicho_trans
    (writeBlock_dicho (N + U + cx0 + ix1) (N + iu1) p.2.ndx p.2.nu (negB p.2.Fu) _ _ i j) d5

/-- The assembly stage step satisfies the write/pass dichotomy on the KKT
residual buffer, for two states with equal offsets. -/
theorem stageStep_r_dicho (N U cx0 : Nat) (g : Buf1) (s1 s2 : AsmSt)
    (hix : s1.ix = s2.ix) (hiu : s1.iu = s2.iu) (p : Nat × StageInput) (i : Nat) :
    (stageStep N U cx0 g s1 p).r i = (stageStep N U cx0 g s2 p).r i ∨
      ((stageStep N U cx0 g s1 p).r i = s1.r i ∧
       (stageStep N U cx0 g s2 p).r i = s2.r i) := by
  obtain ⟨ix1, iu1, K1, r1⟩ := s1
  obtain ⟨ix2, iu2, K2, r2⟩ := s2
  simp only at hix hiu
  subst hix; subst hiu
  unfold stageStep
  simp only
  have d0 : (if p.1 = 0 then writeSeg (N + U) p.2.ndx g r1 else r1) i =
      (if p.1 = 0 then writeSeg (N + U) p.2.ndx g r2 else r2) i ∨
      ((if p.1 = 0 then writeSeg (N + U) p.2.ndx g r1 else r1) i = r1 i ∧
       (if p.1 = 0 then writeSeg (N + U) p.2.ndx g r2 else r2) i = r2 i) := by
    by_cases ht : p.1 = 0
    · rw [if_pos ht, if_pos ht]; exact writeSeg_dicho (N + U) p.2.ndx g r1 r2 i
    · rw [if_neg ht, if_neg ht]; exact Or.inr ⟨rfl, rfl⟩
  have d1 := dicho_trans (writeSeg_dicho ix1 p.2.ndx p.2.Lx _ _ i) d0
  have d2 := dicho_trans (writeSeg_dicho (N + iu1) p.2.nu p.2.Lu _ _ i) d1
  exact dicho_trans (writeSeg_dicho (N + U + cx0 + ix1) p.2.ndx p.2.xnextGap _ _ i) d2

end KKTSolver

namespace KKTSolver

/-- Offsets after the whole assembly loop: each stage advances `ix`/`iu` by
its own dimensions. -/
theorem calcFold_offsets (N U cx0 : Nat) (g : Buf1) (l : List (Nat × StageInput)) :
    ∀ s : AsmSt,
      (List.foldl (stageStep N U cx0 g) s l).ix = s.ix + sumNdx l ∧
      (List.foldl (stageStep N U cx0 g) s l).iu = s.iu + sumNu l := by
  induction l with
  | nil => intro s; simp [sumNdx, sumNu]
  | cons p rest ih =>
    intro s
    rw [List.foldl_cons]
    obtain ⟨ha, hb⟩ := ih (stageStep N U cx0 g s p)
    constructor
    · rw [ha, (stageStep_offsets N U cx0 g s p).1]
      simp [sumNdx, Nat.add_assoc]
    · rw [hb, (stageStep_offsets N U cx0 g s p).2]
      simp [sumNu, Nat.add_assoc]

/-- The assembly loop satisfies the write/pass dichotomy on both buffers,
for two starting states with equal offsets. -/
theorem calcFold_dicho (N U cx0 : Nat) (g : Buf1) (l : List (Nat × StageInput)) :
    ∀ s1 s2 : AsmSt, s1.ix = s2.ix → s1.iu = s2.iu →
      (∀ i j, (List.foldl (stageStep N U cx0 g) s1 l).K i j =
          (List.foldl (stageStep N U cx0 g) s2 l).K i j ∨
        ((List.foldl (stageStep N U cx0 g) s1 l).K i j = s1.K i j ∧
         (List.foldl (stageStep N U cx0 g) s2 l).K i j = s2.K i j)) ∧
      (∀ i, (List.foldl (stageStep N U cx0 g) s1 l).r i =
          (List.foldl (stageStep N U cx0 g) s2 l).r i ∨
        ((List.foldl (stageStep N U cx0 g) s1 l).r i = s1.r i ∧
         (List.foldl (stageStep N U cx0 g) s2 l).r i = s2.r i)) := by
  induction l with
  | nil => intro s1 s2 hix hiu; exact ⟨fun i j => Or.inr ⟨rfl, rfl⟩, fun i => Or.inr ⟨rfl, rfl⟩⟩
  | cons p rest ih =>
    intro s1 s2 hix hiu
    rw [List.foldl_cons, List.foldl_cons]
    have hix2 : (stageStep N U cx0 g s1 p).ix = (stageStep N U cx0 g s2 p).ix := by
      rw [(stageStep_offsets N U cx0 g s1 p).1, (stageStep_offsets N U cx0 g s2 p).1, hix]
    have hiu2 : (stageStep N U cx0 g s1 p).iu = (stageStep N U cx0 g s2 p).iu := by
      rw [(stageStep_offsets N U cx0 g s1 p).2, (stageStep_offsets N U cx0 g s2 p).2, hiu]
    obtain ⟨ihK, ihr⟩ := ih (stageStep N U cx0 g s1 p) (stageStep N U cx0 g s2 p) hix2 hiu2
    constructor
    · intro i j
      exact dicho_trans (ihK i j) (stageStep_K_dicho N U cx0 g s1 s2 hix hiu p i j)
    · intro i
      exact dicho_trans (ihr i) (stageStep_r_dicho N U cx0 g s1 s2 hix hiu p i)

/-- The assembly loop preserves pointwise agreement of the matrix buffers. -/
theorem calcFold_agreeK (N U cx0 : Nat) (g : Buf1) (l : List (Nat × StageInput))
    (s1 s2 : AsmSt) (hix : s1.ix = s2.ix) (hiu : s1.iu = s2.iu) (i j : Nat)
    (hb : s1.K i j = s2.K i j) :
    (List.foldl (stageStep N U cx0 g) s1 l).K i j =
      (List.foldl (stageStep N U cx0 g) s2 l).K i j := by
  rcases (calcFold_dicho N U cx0 g l s1 s2 hix hiu).1 i j with h | ⟨h1, h2⟩
  · exact h
  · rw [h1, h2, hb]

/-- Entries in columns at or beyond `ndx + nu` are never written by the
assembly loop, provided the offset budgets fit. -/
theorem calcFold_high (N U cx0 : Nat) (g : Buf1) (l : List (Nat × StageInput)) :
    ∀ s : AsmSt, s.ix + sumNdx l ≤ N → s.iu + sumNu l ≤ U →
      ∀ i j, N + U ≤ j → (List.foldl (stageStep N U cx0 g) s l).K i j = s.K i j := by
  induction l with
  | nil => intro s _ _ i j _; rfl
  | cons p rest ih =>
    intro s hx hu i j hj
    rw [List.foldl_cons]
    have hxr : (stageStep N U cx0 g s p).ix + sumNdx rest ≤ N := by
      rw [(stageStep_offsets N U cx0 g s p).1]
      simp [sumNdx] at hx ⊢
      omega
    have hur : (stageStep N U cx0 g s p).iu + sumNu rest ≤ U := by
      rw [(stageStep_offsets N U cx0 g s p).2]
      simp [sumNu] at hu ⊢
      omega
    rw [ih (stageStep N U cx0 g s p) hxr hur i j hj]
    have hndx : s.ix + p.2.ndx ≤ N := by
      simp [sumNdx] at hx
      omega
    have hnu : s.iu + p.2.nu ≤ U := by
      simp [sumNu] at hu
      omega
    obtain ⟨ix1, iu1, K1, r1⟩ := s
    simp only at hndx hnu
    unfold stageStep
    simp only
    rw [writeBlock_colOut _ _ _ _ _ _ _ _ (by omega),
      writeBlock_colOut _ _ _ _ _ _ _ _ (by omega),
      writeBlock_colOut _ _ _ _ _ _ _ _ (by omega),
      writeBlock_colOut _ _ _ _ _ _ _ _ (by omega),
      writeBlock_colOut _ _ _ _ _ _ _ _ (by omega),
      writeBlock_colOut _ _ _ _ _ _ _ _ (by omega)]

end KKTSolver

namespace KKTSolver

/-- At a diagonal entry inside the stage's state block, the stage step
writes a value determined by the stage data alone (the `Lxx` write covers
it, later writes preserve the agreement). -/
theorem stageStep_diagX (N U cx0 : Nat) (g : Buf1) (s1 s2 : AsmSt)
    (hix : s1.ix = s2.ix) (hiu : s1.iu = s2.iu) (p : Nat × StageInput) (i : Nat)
    (h1 : s1.ix ≤ i) (h2 : i < s1.ix + p.2.ndx) :
    (stageStep N U cx0 g s1 p).K i i = (stageStep N U cx0 g s2 p).K i i := by
  obtain ⟨ix1, iu1, K1, r1⟩ := s1
  obtain ⟨ix2, iu2, K2, r2⟩ := s2
  simp only at hix hiu h1 h2
  subst hix; subst hiu
  unfold stageStep
  simp only
  have e1 : writeBlock ix1 ix1 p.2.ndx p.2.ndx p.2.Lxx K1 i i =
      writeBlock ix1 ix1 p.2.ndx p.2.ndx p.2.Lxx K2 i i := by
    rw [writeBlock_covered _ _ _ _ _ _ _ _ h1 h2 h1 h2,
      writeBlock_covered _ _ _ _ _ _ _ _ h1 h2 h1 h2]
  exact writeBlock_agree _ _ _ _ _ _ _ _ _ (writeBlock_agree _ _ _ _ _ _ _ _ _
    (writeBlock_agree _ _ _ _ _ _ _ _ _ (writeBlock_agree _ _ _ _ _ _ _ _ _
      (writeBlock_agree _ _ _ _ _ _ _ _ _ e1))))

/-- At a diagonal entry inside the stage's control block, the stage step
writes a value determined by the stage data alone (the `Luu` write covers
it). -/
theorem stageStep_diagU (N U cx0 : Nat) (g : Buf1) (s1 s2 : AsmSt)
    (hix : s1.ix = s2.ix) (hiu : s1.iu = s2.iu) (p : Nat × StageInput) (i : Nat)
    (h1 : N + s1.iu ≤ i) (h2 : i < N + s1.iu + p.2.nu) :
    (stageStep N U cx0 g s1 p).K i i = (stageStep N U cx0 g s2 p).K i i := by
  obtain ⟨ix1, iu1, K1, r1⟩ := s1
  obtain ⟨ix2, iu2, K2, r2⟩ := s2
  simp only at hix hiu h1 h2
  subst hix; subst hiu
  unfold stageStep
  simp only
  have e4 : ∀ b1 b2 : Buf2,
      writeBlock (N + iu1) (N + iu1) p.2.nu p.2.nu p.2.Luu b1 i i =
      writeBlock (N + iu1) (N + iu1) p.2.nu p.2.nu p.2.Luu b2 i i := by
    intro b1 b2
    rw [writeBlock_covered _ _ _ _ _ _ _ _ h1 h2 h1 h2,
      writeBlock_covered _ _ _ _ _ _ _ _ h1 h2 h1 h2]
  exact writeBlock_agree _ _ _ _ _ _ _ _ _ (writeBlock_agree _ _ _ _ _ _ _ _ _ (e4 _ _))

/-- Diagonal entries inside the state range of the assembly loop end up with
values determined by the stage data alone. -/
theorem calcFold_diagX (N U cx0 : Nat) (g : Buf1) (l : List (Nat × StageInput)) :
    ∀ s1 s2 : AsmSt, s1.ix = s2.ix → s1.iu = s2.iu →
      ∀ i, s1.ix ≤ i → i < s1.ix + sumNdx l →
        (List.foldl (stageStep N U cx0 g) s1 l).K i i =
          (List.foldl (stageStep N U cx0 g) s2 l).K i i := by
  induction l with
  | nil =>
    intro s1 s2 _ _ i h1 h2
    simp [sumNdx] at h2
    omega
  | cons p rest ih =>
    intro s1 s2 hix hiu i h1 h2
    rw [List.foldl_cons, List.foldl_cons]
    have hix2 : (stageStep N U cx0 g s1 p).ix = (stageStep N U cx0 g s2 p).ix := by
      rw [(stageStep_offsets N U cx0 g s1 p).1, (stageStep_offsets N U cx0 g s2 p).1, hix]
    have hiu2 : (stageStep N U cx0 g s1 p).iu = (stageStep N U cx0 g s2 p).iu := by
      rw [(stageStep_offsets N U cx0 g s1 p).2, (stageStep_offsets N U cx0 g s2 p).2, hiu]
    by_cases hc : i < s1.ix + p.2.ndx
    · exact calcFold_agreeK N U cx0 g rest _ _ hix2 hiu2 i i
        (stageStep_diagX N U cx0 g s1 s2 hix hiu p i h1 hc)
    · apply ih (stageStep N U cx0 g s1 p) (stageStep N U cx0 g s2 p) hix2 hiu2 i
      · rw [(stageStep_offsets N U cx0 g s1 p).1]; omega
      · rw [(stageStep_offsets N U cx0 g s1 p).1]
        simp [sumNdx] at h2 ⊢
        omega

/-- Diagonal entries inside the control range of the assembly loop end up
with values determined by the stage data alone. -/
theorem calcFold_diagU (N U cx0 : Nat) (g : Buf1) (l : List (Nat × StageInput)) :
    ∀ s1 s2 : AsmSt, s1.ix = s2.ix → s1.iu = s2.iu →
      ∀ i, N + s1.iu ≤ i → i < N + s1.iu + sumNu l →
        (List.foldl (stageStep N U cx0 g) s1 l).K i i =
          (List.foldl (stageStep N U cx0 g) s2 l).K i i := by
  induction l with
  | nil =>
    intro s1 s2 _ _ i h1 h2
    simp [sumNu] at h2
    omega
  | cons p rest ih =>
    intro s1 s2 hix hiu i h1 h2
    rw [List.foldl_cons, List.foldl_cons]
    have hix2 : (stageStep N U cx0 g s1 p).ix = (stageStep N U cx0 g s2 p).ix := by
      rw [(stageStep_offsets N U cx0 g s1 p).1, (stageStep_offsets N U cx0 g s2 p).1, hix]
    have hiu2 : (stageStep N U cx0 g s1 p).iu = (stageStep N U cx0 g s2 p).iu := by
      rw [(stageStep_offsets N U cx0 g s1 p).2, (stageStep_offsets N U cx0 g s2 p).2, hiu]
    by_cases hc : i < N + s1.iu + p.2.nu
    · exact calcFold_agreeK N U cx0 g rest _ _ hix2 hiu2 i i
        (stageStep_diagU N U cx0 g s1 s2 hix hiu p i h1 hc)
    · apply ih (stageStep N U cx0 g s1 p) (stageStep N U cx0 g s2 p) hix2 hiu2 i
      · rw [(stageStep_offsets N U cx0 g s1 p).2]; omega
      · rw [(stageStep_offsets N U cx0 g s1 p).2]
        simp [sumNu] at h2 ⊢
        omega

end KKTSolver

namespace KKTSolver

/-- Summing the state dimensions over the enumerated stages equals summing
them over the stages. -/
theorem enum_sumNdx (stages : List StageInput) :
    sumNdx stages.enum = (stages.map StageInput.ndx).sum := by
  unfold sumNdx
  rw [show (fun q : Nat × StageInput => q.2.ndx) = StageInput.ndx ∘ Prod.snd from rfl,
    ← List.map_map, List.enum_map_snd]

/-- Summing the control dimensions over the enumerated stages equals summing
them over the stages. -/
theorem enum_sumNu (stages : List StageInput) :
    sumNu stages.enum = (stages.map StageInput.nu).sum := by
  unfold sumNu
  rw [show (fun q : Nat × StageInput => q.2.nu) = StageInput.nu ∘ Prod.snd from rfl,
    ← List.map_map, List.enum_map_snd]

/-- The offset reached by the assembly loop inside `asmA` is the total
running state dimension. -/
theorem asmA_loop_ix (p : ProblemInput) (K0 : Buf2) (r0 : Buf1) :
    (calcLoop p ⟨0, 0, writeBlock (p.N + p.U) 0 p.N p.N idB K0, r0⟩).ix =
      (p.stages.map StageInput.ndx).sum := by
  unfold calcLoop
  rw [(calcFold_offsets p.N p.U p.cx0 p.x0gap p.stages.enum _).1]
  rw [enum_sumNdx]
  simp

/-- The write-only part of `calc` satisfies the write/pass dichotomy on the
KKT matrix buffer. -/
theorem asmA_K_dicho (p : ProblemInput) (K1 : Buf2) (r1 : Buf1) (K2 : Buf2) (r2 : Buf1)
    (i j : Nat) :
    (asmA p K1 r1).K i j = (asmA p K2 r2).K i j ∨
      ((asmA p K1 r1).K i j = K1 i j ∧ (asmA p K2 r2).K i j = K2 i j) := by
  unfold asmA
  simp only
  rw [show (calcLoop p ⟨0, 0, writeBlock (p.N + p.U) 0 p.N p.N idB K1, r1⟩).ix =
      (calcLoop p ⟨0, 0, writeBlock (p.N + p.U) 0 p.N p.N idB K2, r2⟩).ix from
    (asmA_loop_ix p K1 r1).trans (asmA_loop_ix p K2 r2).symm]
  have d1 := writeBlock_dicho (p.N + p.U) 0 p.N p.N idB K1 K2 i j
  have d2 := dicho_trans ((calcFold_dicho p.N p.U p.cx0 p.x0gap p.stages.enum
    ⟨0, 0, writeBlock (p.N + p.U) 0 p.N p.N idB K1, r1⟩
    ⟨0, 0, writeBlock (p.N + p.U) 0 p.N p.N idB K2, r2⟩ rfl rfl).1 i j) d1
  exact dicho_trans (writeBlock_dicho _ _ p.ndxf p.ndxf p.Lxxf _ _ i j) d2

/-- The write-only part of `calc` satisfies the write/pass dichotomy on the
KKT residual buffer. -/
theorem asmA_r_dicho (p : ProblemInput) (K1 : Buf2) (r1 : Buf1) (K2 : Buf2) (r2 : Buf1)
    (i : Nat) :
    (asmA p K1 r1).r i = (asmA p K2 r2).r i ∨
      ((asmA p K1 r1).r i = r1 i ∧ (asmA p K2 r2).r i = r2 i) := by
  unfold asmA
  simp only
  rw [show (calcLoop p ⟨0, 0, writeBlock (p.N + p.U) 0 p.N p.N idB K1, r1⟩).ix =
      (calcLoop p ⟨0, 0, writeBlock (p.N + p.U) 0 p.N p.N idB K2, r2⟩).ix from
    (asmA_loop_ix p K1 r1).trans (asmA_loop_ix p K2 r2).symm]
  have d2 := (calcFold_dicho p.N p.U p.cx0 p.x0gap p.stages.enum
    ⟨0, 0, writeBlock (p.N + p.U) 0 p.N p.N idB K1, r1⟩
    ⟨0, 0, writeBlock (p.N + p.U) 0 p.N p.N idB K2, r2⟩ rfl rfl).2 i
  exact dicho_trans (writeSeg_dicho _ p.ndxf p.Lxf _ _ i) d2

/-- The write-only part of `calc` never writes columns at or beyond
`ndx + nu`. -/
theorem asmA_K_high (p : ProblemInput) (K0 : Buf2) (r0 : Buf1) (i j : Nat)
    (hj : p.N + p.U ≤ j) : (asmA p K0 r0).K i j = K0 i j := by
  unfold asmA
  simp only
  rw [writeBlock_colOut _ _ _ _ _ _ _ _ (by
    rw [asmA_loop_ix p K0 r0]
    have : (p.stages.map StageInput.ndx).sum + p.ndxf = p.N := rfl
    omega)]
  unfold calcLoop
  rw [calcFold_high p.N p.U p.cx0 p.x0gap p.stages.enum
    ⟨0, 0, writeBlock (p.N + p.U) 0 p.N p.N idB K0, r0⟩ (by
      show 0 + sumNdx p.stages.enum ≤ p.N
      rw [enum_sumNdx]
      have h2 : (p.stages.map StageInput.ndx).sum + p.ndxf = p.N := rfl
      omega)
    (by
      show 0 + sumNu p.stages.enum ≤ p.U
      rw [enum_sumNu]
      have h2 : (p.stages.map StageInput.nu).sum = p.U := rfl
      omega) i j hj]
  exact writeBlock_colOut _ _ _ _ _ _ _ _ (by omega)

/-- Every diagonal entry of the cost block (indices below `ndx + nu`) is
fully determined by the problem data after the write-only part of `calc`:
the per-stage `Lxx`/`Luu` blocks and the terminal `Lxx` block tile the
diagonal. -/
theorem asmA_K_diag (p : ProblemInput) (K1 : Buf2) (r1 : Buf1) (K2 : Buf2) (r2 : Buf1)
    (i : Nat) (hi : i < p.N + p.U) :
    (asmA p K1 r1).K i i = (asmA p K2 r2).K i i := by
  have hNdef : (p.stages.map StageInput.ndx).sum + p.ndxf = p.N := rfl
  have hUdef : (p.stages.map StageInput.nu).sum = p.U := rfl
  unfold asmA
  simp only
  rw [show (calcLoop p ⟨0, 0, writeBlock (p.N + p.U) 0 p.N p.N idB K1, r1⟩).ix =
      (calcLoop p ⟨0, 0, writeBlock (p.N + p.U) 0 p.N p.N idB K2, r2⟩).ix from
    (asmA_loop_ix p K1 r1).trans (asmA_loop_ix p K2 r2).symm]
  by_cases hx : i < (p.stages.map StageInput.ndx).sum
  · refine writeBlock_agree _ _ _ _ _ _ _ _ _ ?_
    unfold calcLoop
    exact calcFold_diagX p.N p.U p.cx0 p.x0gap p.stages.enum
      ⟨0, 0, writeBlock (p.N + p.U) 0 p.N p.N idB K1, r1⟩
      ⟨0, 0, writeBlock (p.N + p.U) 0 p.N p.N idB K2, r2⟩ rfl rfl i (Nat.zero_le i)
      (by show i < 0 + sumNdx p.stages.enum; rw [enum_sumNdx]; omega)
  · by_cases hx2 : i < p.N
    · have hcov : (calcLoop p ⟨0, 0, writeBlock (p.N + p.U) 0 p.N p.N idB K2, r2⟩).ix ≤ i ∧
          i < (calcLoop p ⟨0, 0, writeBlock (p.N + p.U) 0 p.N p.N idB K2, r2⟩).ix + p.ndxf := by
        rw [asmA_loop_ix p K2 r2]
        omega
      rw [writeBlock_covered _ _ _ _ _ _ _ _ hcov.1 hcov.2 hcov.1 hcov.2,
        writeBlock_covered _ _ _ _ _ _ _ _ hcov.1 hcov.2 hcov.1 hcov.2]
    · refine writeBlock_agree _ _ _ _ _ _ _ _ _ ?_
      unfold calcLoop
      exact calcFold_diagU p.N p.U p.cx0 p.x0gap p.stages.enum
        ⟨0, 0, writeBlock (p.N + p.U) 0 p.N p.N idB K1, r1⟩
        ⟨0, 0, writeBlock (p.N + p.U) 0 p.N p.N idB K2, r2⟩ rfl rfl i
        (show p.N + 0 ≤ i by omega)
        (by show i < p.N + 0 + sumNu p.stages.enum; rw [enum_sumNu, hUdef]; omega)

end KKTSolver

namespace KKTSolver

/-- A destination entry of the symmetrizing copy receives the mirrored
source entry. -/
theorem transCopy_dest (N U : Nat) (K : Buf2) (i j : Nat)
    (h1 : i < N + U) (h2 : N + U ≤ j) (h3 : j < N + U + N) :
    transCopy N U K i j = K j i := by
  unfold transCopy
  rw [if_pos ⟨h1, h2, h3⟩]

/-- Entries outside the destination block of the symmetrizing copy are
unchanged. -/
theorem transCopy_out (N U : Nat) (K : Buf2) (i j : Nat)
    (h : ¬(i < N + U ∧ N + U ≤ j ∧ j < N + U + N)) :
    transCopy N U K i j = K i j := by
  unfold transCopy
  rw [if_neg h]

/-- The two conditional diagonal regularization writes amount to adding the
input-determined quantity `regDelta` to every entry. -/
theorem applyRegs_delta (xreg ureg : RVal) (N U : Nat) (K : Buf2) (i j : Nat) :
    applyUReg ureg N U (applyXReg xreg N K) i j = K i j + regDelta xreg ureg N U i j := by
  cases xreg <;> cases ureg <;>
    simp only [applyXReg, applyUReg, addDiag, regDelta, ite_self] <;>
    first
    | (split_ifs <;> ring)
    | ring

/-- Away from the cost-block diagonal the regularization writes add
nothing. -/
theorem regDelta_zero (xreg ureg : RVal) (N U : Nat) (i j : Nat)
    (h : ¬(i = j ∧ i < N + U)) : regDelta xreg ureg N U i j = 0 := by
  have hpf1 : ¬(i = j ∧ 0 ≤ i ∧ i < 0 + N) := by
    rintro ⟨ha, _, hc⟩; exact h ⟨ha, by omega⟩
  have hpf2 : ¬(i = j ∧ N ≤ i ∧ i < N + U) := by
    rintro ⟨ha, _, hc⟩; exact h ⟨ha, by omega⟩
  unfold regDelta
  rw [if_neg hpf1, if_neg hpf2]
  ring

/-- Re-assembling from the buffers produced by `calc` yields, after the
symmetrizing copy, exactly the same matrix as assembling from any initial
buffers: every entry the copy can see is either freshly written from the
problem data or untouched by the whole of `calc`. -/
theorem transCopy_stable (p : ProblemInput) (xreg ureg : RVal) (K0 : Buf2) (r0 : Buf1)
    (i j : Nat) :
    transCopy p.N p.U
        (asmA p (calcBufs p xreg ureg K0 r0).1 (calcBufs p xreg ureg K0 r0).2).K i j =
      transCopy p.N p.U (asmA p K0 r0).K i j := by
  have hKc : ∀ a b : Nat, (calcBufs p xreg ureg K0 r0).1 a b =
      transCopy p.N p.U (asmA p K0 r0).K a b + regDelta xreg ureg p.N p.U a b :=
    fun a b => applyRegs_delta xreg ureg p.N p.U (transCopy p.N p.U (asmA p K0 r0).K) a b
  by_cases hdest : i < p.N + p.U ∧ p.N + p.U ≤ j ∧ j < p.N + p.U + p.N
  · rw [transCopy_dest p.N p.U _ i j hdest.1 hdest.2.1 hdest.2.2,
      transCopy_dest p.N p.U _ i j hdest.1 hdest.2.1 hdest.2.2]
    rcases asmA_K_dicho p (calcBufs p xreg ureg K0 r0).1 (calcBufs p xreg ureg K0 r0).2
      K0 r0 j i with h | ⟨h1, h2⟩
    · exact h
    · rw [h1, h2]
      rw [hKc j i]
      rw [transCopy_out p.N p.U _ j i (by omega)]
      rw [regDelta_zero xreg ureg p.N p.U j i (by omega)]
      rw [add_zero]
      exact h2
  · rw [transCopy_out p.N p.U _ i j hdest, transCopy_out p.N p.U _ i j hdest]
    by_cases hd : i = j ∧ i < p.N + p.U
    · obtain ⟨rfl, hlt⟩ := hd
      exact asmA_K_diag p (calcBufs p xreg ureg K0 r0).1 (calcBufs p xreg ureg K0 r0).2
        K0 r0 i hlt
    · rcases asmA_K_dicho p (calcBufs p xreg ureg K0 r0).1 (calcBufs p xreg ureg K0 r0).2
        K0 r0 i j with h | ⟨h1, h2⟩
      · exact h
      · rw [h1, h2]
        rw [hKc i j]
        rw [transCopy_out p.N p.U _ i j hdest]
        rw [regDelta_zero xreg ureg p.N p.U i j hd]
        rw [add_zero]
        exact h2

/-- Claim C4: for fixed trajectory, derivative data and regularization
values, running `calc` twice in succession produces exactly the same KKT
matrix and KKT residual vector after the second call as after the first —
in particular the regularization added to the Hessian diagonal does not
accumulate, because every diagonal entry of the cost block is fully
overwritten (`asmA_K_diag`) before the regularization is re-added. -/
theorem calc_idempotent (p : ProblemInput) (xreg ureg : RVal) (K0 : Buf2) (r0 : Buf1) :
    calcBufs p xreg ureg (calcBufs p xreg ureg K0 r0).1 (calcBufs p xreg ureg K0 r0).2 =
      calcBufs p xreg ureg K0 r0 := by
  have hKc : ∀ a b : Nat, (calcBufs p xreg ureg K0 r0).1 a b =
      transCopy p.N p.U (asmA p K0 r0).K a b + regDelta xreg ureg p.N p.U a b :=
    fun a b => applyRegs_delta xreg ureg p.N p.U (transCopy p.N p.U (asmA p K0 r0).K) a b
  refine Prod.ext ?_ ?_
  · funext i j
    show applyUReg ureg p.N p.U (applyXReg xreg p.N (transCopy p.N p.U
        (asmA p (calcBufs p xreg ureg K0 r0).1 (calcBufs p xreg ureg K0 r0).2).K)) i j =
      (calcBufs p xreg ureg K0 r0).1 i j
    rw [applyRegs_delta, transCopy_stable p xreg ureg K0 r0 i j, ← hKc i j]
  · funext i
    show (asmA p (calcBufs p xreg ureg K0 r0).1 (calcBufs p xreg ureg K0 r0).2).r i =
      (calcBufs p xreg ureg K0 r0).2 i
    rcases asmA_r_dicho p (calcBufs p xreg ureg K0 r0).1 (calcBufs p xreg ureg K0 r0).2
      K0 r0 i with h | ⟨h1, h2⟩
    · exact h
    · exact h1

end KKTSolver
